import Mathlib

/-!
Verification of the execution-DAG core of task-maker-rust.

The development shallowly embeds:
* `src/src/execution/dag.rs` — the `ExecutionDAG` data model, `add_execution`
  and the validator `check_dag` (phases: execution registration with duplicate
  detection, provided-file registration, Kahn-style traversal, stuck-execution
  classification, callback checks);
* `src/src/executor/client.rs` — the receive loop of `ExecutorClient::evaluate`
  and the bytes it hands to `get_content` callbacks;
* `src/src/remote.rs` — the URL-parse fallback and the per-address connect loop
  of `connect_to_remote_server`.

Rust `HashMap`/`HashSet` values are embedded as association lists / lists whose
order stands for the (arbitrary) iteration order of the hash containers;
nondeterminism of that order is captured by quantifying over permutations of
the lists.  Rust panics (`assert_ne!`, `expect`, `unwrap`) are embedded as the
distinguished result `CheckResult.panicked`; the bounded-fuel recursion used
for the `while` loop reports `CheckResult.fuelOut` when the bound is exceeded,
and the development proves the bound is never exceeded.
-/

namespace TaskMaker

/-- 128-bit random identifier of a file, embedded as `Nat`. -/
abbrev FileUuid := Nat

/-- 128-bit random identifier of an execution, embedded as `Nat`. -/
abbrev ExecutionUuid := Nat

/-- Modelled from the spec: `Execution` lives in
`src/src/execution/execution.rs`, which is not in the source tree.  Per the
data model of the spec, an execution has a uuid and a description, its
`dependencies()` are the multiset of all `FileUuid` it reads (stdin plus
inputs; it may contain repetitions) and its `outputs()` are the set of all
`FileUuid` it produces (modelled as a list; the set-ness is stated as a
`Nodup` hypothesis where it matters).  `check_dag` consumes executions only
through these accessors, so they become plain fields `deps` and `outs`. -/
structure Execution where
  uuid : ExecutionUuid
  description : String
  deps : List FileUuid
  outs : List FileUuid
deriving DecidableEq

/-- The error type of DAG validation, from `dag.rs`.  Payloads that are only
part of the human-readable message keep their `String` form. -/
inductive DAGError where
  | MissingFile (uuid : FileUuid) (description : String)
  | MissingExecution (uuid : FileUuid)
  | CycleDetected (description : String)
  | DuplicateExecutionUUID (uuid : ExecutionUuid)
  | DuplicateFileUUID (uuid : FileUuid)
deriving DecidableEq

/-- Result of running the embedded `check_dag`: `ok` / `err` are the two sides
of the Rust `Result`; `panicked` marks a run in which a Rust panic
(`assert_ne!`, `expect`, `unwrap`) would fire; `fuelOut` marks exhaustion of
the fuel bound used to embed the `while` loop (proved unreachable). -/
inductive CheckResult where
  | ok
  | err (e : DAGError)
  | panicked
  | fuelOut
deriving DecidableEq

/-- The apostrophe character as a string (used by error-message formatting). -/
def squote : String := (Char.ofNat 39).toString

/-- Message attached to the `MissingFile` error reported for a stuck
execution: Rust `format!("Dependency of '{}'", exec.description)`. -/
def depDesc (description : String) : String :=
  "Dependency of " ++ squote ++ description ++ squote

/-- Association-list lookup, first match wins — the embedding of
`HashMap::get`. -/
def alookup {α : Type} : List (ExecutionUuid × α) → ExecutionUuid → Option α
  | [], _ => none
  | (k, v) :: rest, u => if k = u then some v else alookup rest u

/-- Embedding of `HashMap::insert` for the executions map: replace the entry
if the key is present, append otherwise. -/
def hmInsert (m : List (ExecutionUuid × Execution)) (k : ExecutionUuid) (v : Execution) :
    List (ExecutionUuid × Execution) :=
  if (alookup m k).isSome then
    m.map (fun p => if p.1 = k then (k, v) else p)
  else m ++ [(k, v)]

/-- `ExecutionDAG::add_execution`: inserts the execution into the executions
map keyed by `execution.uuid` (`HashMap::insert`, so an execution already
present under the same uuid is silently replaced). -/
def add_execution (executions : List (ExecutionUuid × Execution)) (e : Execution) :
    List (ExecutionUuid × Execution) :=
  hmInsert executions e.uuid e

/-- Number of occurrences of an element in a list. -/
def cnt {α : Type} [DecidableEq α] (a : α) : List α → Nat
  | [] => 0
  | b :: rest => (if b = a then 1 else 0) + cnt a rest

/-- Number of dependencies in `ds` that are not yet drained (not in `DF`):
the value the pending-dependency counter of an execution holds after the
files in `DF` have been processed. -/
def remaining (ds : List FileUuid) (DF : List FileUuid) : Nat :=
  (ds.filter (fun d => decide (d ∉ DF))).length

/-- Keys of an association list. -/
def keysOf {α : Type} (m : List (ExecutionUuid × α)) : List ExecutionUuid :=
  m.map Prod.fst

/-- Concatenation of the `outputs()` of all executions, in map order: the
contents of the `known_files` set contributed by phase 1 of `check_dag`. -/
def outsConcat : List (ExecutionUuid × Execution) → List FileUuid
  | [] => []
  | p :: rest => p.2.outs ++ outsConcat rest

/-- The consumers list `dependencies[f]` built by phase 1 of `check_dag`: one
entry per occurrence of `f` in an execution's dependencies, in map order. -/
def consumersSpec (L : List (ExecutionUuid × Execution)) (f : FileUuid) :
    List ExecutionUuid :=
  match L with
  | [] => []
  | p :: rest => List.replicate (cnt f p.2.deps) p.1 ++ consumersSpec rest f

/-- The known-files set after both registration phases: all execution outputs
followed by all provided files. -/
def knownFiles (L : List (ExecutionUuid × Execution)) (P : List FileUuid) :
    List FileUuid :=
  outsConcat L ++ P

/-- Functional update of all entries of a counter map at one key — the
embedding of `*num_dependencies.get_mut(&exec) = v`. -/
def ndUpdate (nd : List (ExecutionUuid × Nat)) (u : ExecutionUuid) (v : Nat) :
    List (ExecutionUuid × Nat) :=
  match nd with
  | [] => []
  | (k, w) :: rest => (k, if k = u then v else w) :: ndUpdate rest u v

/-- One decrement of the pending-dependency counter of consumer `u`
(`dag.rs` lines 244-255).  `none` embeds a panic: the `expect` on a missing
key or the `assert_ne!` on a zero counter. -/
def decOne (nd : List (ExecutionUuid × Nat)) (re : List ExecutionUuid)
    (u : ExecutionUuid) : Option (List (ExecutionUuid × Nat) × List ExecutionUuid) :=
  match alookup nd u with
  | none => none
  | some 0 => none
  | some (n + 1) =>
      let nd' := ndUpdate nd u n
      if n = 0 then some (nd', re ++ [u]) else some (nd', re)

/-- Decrement the counters of every consumer in `cs`, appending executions
whose counter reaches zero to the ready queue. -/
def drainConsumers (cs : List ExecutionUuid) (nd : List (ExecutionUuid × Nat))
    (re : List ExecutionUuid) :
    Option (List (ExecutionUuid × Nat) × List ExecutionUuid) :=
  match cs with
  | [] => some (nd, re)
  | c :: rest =>
    match decOne nd re c with
    | none => none
    | some (nd', re') => drainConsumers rest nd' re'

/-- `for file in ready_files.drain(..)`: process every ready file, decrementing
its consumers (a file with no consumers is skipped, which equals iterating an
empty consumers list). -/
def drainFiles (cons : FileUuid → List ExecutionUuid) (fs : List FileUuid)
    (nd : List (ExecutionUuid × Nat)) (re : List ExecutionUuid) :
    Option (List (ExecutionUuid × Nat) × List ExecutionUuid) :=
  match fs with
  | [] => some (nd, re)
  | f :: rest =>
    match drainConsumers (cons f) nd re with
    | none => none
    | some (nd', re') => drainFiles cons rest nd' re'

/-- `dag.executions.get(&uuid)` on the embedded map. -/
def execsGet (L : List (ExecutionUuid × Execution)) (u : ExecutionUuid) :
    Option Execution :=
  alookup L u

/-- Outputs of the execution registered under `u` (empty list if absent). -/
def outsOf (L : List (ExecutionUuid × Execution)) (u : ExecutionUuid) :
    List FileUuid :=
  match execsGet L u with
  | none => []
  | some e => e.outs

/-- Concatenated outputs of a list of execution uuids. -/
def outsOfList (L : List (ExecutionUuid × Execution)) : List ExecutionUuid → List FileUuid
  | [] => []
  | u :: rest => outsOf L u ++ outsOfList L rest

/-- `for exec_uuid in ready_execs.drain(..)`: look every drained execution up
in the map (`expect`, embedded as `none` on failure) and push its outputs onto
the ready-files queue. -/
def drainExecs (L : List (ExecutionUuid × Execution)) (es : List ExecutionUuid)
    (rf : List FileUuid) : Option (List FileUuid) :=
  match es with
  | [] => some rf
  | u :: rest =>
    match execsGet L u with
    | none => none
    | some e => drainExecs L rest (rf ++ e.outs)

/-- Result of the traversal loop. -/
inductive LoopRes where
  | done (nd : List (ExecutionUuid × Nat))
  | panicked
  | fuelOut
deriving DecidableEq

/-- The `while !ready_execs.is_empty() || !ready_files.is_empty()` loop of
`check_dag`, with explicit fuel.  Each iteration drains the whole ready-files
queue (collecting newly ready executions) and then the whole ready-executions
queue (collecting their outputs as the next ready files). -/
def visitLoop (L : List (ExecutionUuid × Execution))
    (cons : FileUuid → List ExecutionUuid) :
    Nat → List (ExecutionUuid × Nat) → List ExecutionUuid → List FileUuid → LoopRes
  | fuel, nd, re, rf =>
    if re = [] ∧ rf = [] then .done nd
    else
      match fuel with
      | 0 => .fuelOut
      | fuel + 1 =>
        match drainFiles cons rf nd re with
        | none => .panicked
        | some (nd', re') =>
          match drainExecs L re' [] with
          | none => .panicked
          | some rf' => visitLoop L cons fuel nd' [] rf'

/-- Insert each output into the known-files set, failing on the first
duplicate (`dag.rs` lines 216-220). -/
def insertOuts (known : List FileUuid) (os : List FileUuid) :
    Except FileUuid (List FileUuid) :=
  match os with
  | [] => .ok known
  | o :: rest => if o ∈ known then .error o else insertOuts (known ++ [o]) rest

/-- State accumulated by phase 1 of `check_dag`. -/
structure BuildSt where
  cons : FileUuid → List ExecutionUuid
  nd : List (ExecutionUuid × Nat)
  known : List FileUuid
  readyE : List ExecutionUuid

/-- `add_dependency(dep, exec)` folded over one execution's dependency list. -/
def addDepsList (u : ExecutionUuid) (ds : List FileUuid)
    (cons : FileUuid → List ExecutionUuid) : FileUuid → List ExecutionUuid :=
  match ds with
  | [] => cons
  | d :: rest => addDepsList u rest (fun f => if f = d then cons f ++ [u] else cons f)

/-- Phase 1 of `check_dag` (`dag.rs` lines 209-229): for each execution in map
order, record its dependencies as consumers, insert its outputs into the
known-files set (failing on a duplicate file), insert its pending-dependency
count (failing on a duplicate execution uuid) and seed the ready-executions
queue when the count is zero. -/
def buildExecs (rest : List (ExecutionUuid × Execution)) (st : BuildSt) :
    Except DAGError BuildSt :=
  match rest with
  | [] => .ok st
  | (u, e) :: rest =>
    let cons := addDepsList u e.deps st.cons
    match insertOuts st.known e.outs with
    | .error f => .error (.DuplicateFileUUID f)
    | .ok known =>
      if (alookup st.nd u).isSome then .error (.DuplicateExecutionUUID u)
      else
        buildExecs rest
          ⟨cons, st.nd ++ [(u, e.deps.length)], known,
           if e.deps.length = 0 then st.readyE ++ [u] else st.readyE⟩

/-- Phase 2 of `check_dag` (`dag.rs` lines 231-236): push every provided file
onto the ready-files queue and insert it into the known-files set, failing on
a duplicate. -/
def addProvided (ps : List FileUuid) (known : List FileUuid) (readyF : List FileUuid) :
    Except DAGError (List FileUuid × List FileUuid) :=
  match ps with
  | [] => .ok (known, readyF)
  | p :: rest =>
    if p ∈ known then .error (.DuplicateFileUUID p)
    else addProvided rest (known ++ [p]) (readyF ++ [p])

/-- First execution whose pending-dependency counter is still positive, in
counter-map iteration order (`dag.rs` lines 266-269). -/
def firstStuck : List (ExecutionUuid × Nat) → Option ExecutionUuid
  | [] => none
  | (u, c) :: rest => if c = 0 then firstStuck rest else some u

/-- First dependency that is not a known file, in dependency order. -/
def firstUnknown (ds : List FileUuid) (known : List FileUuid) : Option FileUuid :=
  match ds with
  | [] => none
  | d :: rest => if d ∈ known then firstUnknown rest known else some d

/-- Classification of a representative stuck execution (`dag.rs` lines
270-281): `MissingFile` on the first dependency outside the known-files set,
otherwise `CycleDetected`; the lookup `unwrap` embeds as `panicked`. -/
def classifyStuck (L : List (ExecutionUuid × Execution)) (known : List FileUuid)
    (u : ExecutionUuid) : CheckResult :=
  match execsGet L u with
  | none => .panicked
  | some e =>
    match firstUnknown e.deps known with
    | some d => .err (.MissingFile d (depDesc e.description))
    | none => .err (.CycleDetected e.description)

/-- File-callback check (`dag.rs` lines 284-291): first subscribed file that
is not known. -/
def cbFileCheck (cbFiles : List FileUuid) (known : List FileUuid) : Option DAGError :=
  match cbFiles with
  | [] => none
  | f :: rest =>
    if f ∈ known then cbFileCheck rest known
    else some (.MissingFile f "File required by a callback")

/-- Execution-callback check (`dag.rs` lines 293-297): first subscribed
execution that is not a key of the counter map. -/
def cbExecCheck (cbExecs : List ExecutionUuid) (nd : List (ExecutionUuid × Nat)) :
    Option DAGError :=
  match cbExecs with
  | [] => none
  | u :: rest =>
    if (alookup nd u).isSome then cbExecCheck rest nd
    else some (.MissingExecution u)

/-- Fuel used for the traversal loop: every item pushed onto either queue over
the whole run is an execution key, a provided file, or a declared output, and
every iteration consumes at least one item, so this bound is never reached. -/
def fuelFor (L : List (ExecutionUuid × Execution)) (P : List FileUuid) : Nat :=
  (P ++ outsConcat L).length + L.length + 1

/-- The embedding of `check_dag` (`dag.rs` lines 190-299).  `L` is the
executions map, `P` the keys of the provided-files map, `cbFiles`/`cbExecs`
the callback subscription sets; list order embeds hash-container iteration
order. -/
def check_dag (L : List (ExecutionUuid × Execution)) (P : List FileUuid)
    (cbFiles : List FileUuid) (cbExecs : List ExecutionUuid) : CheckResult :=
  match buildExecs L ⟨fun _ => [], [], [], []⟩ with
  | .error e => .err e
  | .ok st =>
    match addProvided P st.known [] with
    | .error e => .err e
    | .ok (known, readyF) =>
      match visitLoop L st.cons (fuelFor L P) st.nd st.readyE readyF with
      | .panicked => .panicked
      | .fuelOut => .fuelOut
      | .done nd =>
        match firstStuck nd with
        | some u => classifyStuck L known u
        | none =>
          match cbFileCheck cbFiles known with
          | some e => .err e
          | none =>
            match cbExecCheck cbExecs nd with
            | some e => .err e
            | none => .ok

/-- The phases of `check_dag` that follow the traversal, expressed as a
function of the set `DF` of drained files (the counter map is recomputed from
`DF` pointwise).  `check_dag` is proved equal to this once the traversal is
characterised. -/
def afterTraversal (L : List (ExecutionUuid × Execution)) (P : List FileUuid)
    (cbFiles : List FileUuid) (cbExecs : List ExecutionUuid)
    (DF : List FileUuid) : CheckResult :=
  let nd := L.map (fun p => (p.1, remaining p.2.deps DF))
  match firstStuck nd with
  | some u => classifyStuck L (knownFiles L P) u
  | none =>
    match cbFileCheck cbFiles (knownFiles L P) with
    | some e => .err e
    | none =>
      match cbExecCheck cbExecs nd with
      | some e => .err e
      | none => .ok

/-- A file is available when it is provided by the client or is an output of
an execution all of whose dependencies are available — the least fixpoint the
Kahn traversal of `check_dag` computes. -/
inductive Avail (L : List (ExecutionUuid × Execution)) (P : List FileUuid) :
    FileUuid → Prop where
  | prov {f : FileUuid} : f ∈ P → Avail L P f
  | out {f : FileUuid} (u : ExecutionUuid) (e : Execution) :
      (u, e) ∈ L → (∀ d ∈ e.deps, Avail L P d) → f ∈ e.outs → Avail L P f

/-- Edge of the execution-to-producing-execution graph: `a` consumes a file
that `b` declares as output. -/
def EdgeTo (L : List (ExecutionUuid × Execution)) (a b : ExecutionUuid) : Prop :=
  ∃ p q, p ∈ L ∧ q ∈ L ∧ p.1 = a ∧ q.1 = b ∧ ∃ d, d ∈ p.2.deps ∧ d ∈ q.2.outs

/-- The execution-to-producing-execution graph contains a cycle. -/
def HasCycle (L : List (ExecutionUuid × Execution)) : Prop :=
  ∃ u, Relation.TransGen (EdgeTo L) u u

/-- Some execution depends on a file that is neither provided nor any
execution's declared output. -/
def HasMissingDep (L : List (ExecutionUuid × Execution)) (P : List FileUuid) : Prop :=
  ∃ p ∈ L, ∃ d ∈ p.2.deps, d ∉ P ∧ ∀ q ∈ L, d ∉ q.2.outs

/-- A file has more than one producer: it is listed in the outputs of two
executions with distinct uuids, or it is both client-provided and listed in
some execution's outputs. -/
def MultiProducer (L : List (ExecutionUuid × Execution)) (P : List FileUuid)
    (f : FileUuid) : Prop :=
  (∃ p ∈ L, ∃ q ∈ L, p.1 ≠ q.1 ∧ f ∈ p.2.outs ∧ f ∈ q.2.outs) ∨
  (f ∈ P ∧ ∃ p ∈ L, f ∈ p.2.outs)

/-- The structural invariants of the data model (spec §3): the executions map
and the provided-files map are well-formed hash maps (distinct keys), outputs
are sets and every file has at most one producer, every dependency is either
provided or some execution's output, the execution graph is acyclic, and
every subscribed uuid resolves to a known entity. -/
def ValidDAGData (L : List (ExecutionUuid × Execution)) (P : List FileUuid)
    (cbFiles : List FileUuid) (cbExecs : List ExecutionUuid) : Prop :=
  (keysOf L).Nodup ∧
  (P ++ outsConcat L).Nodup ∧
  (∀ p ∈ L, ∀ d ∈ p.2.deps, d ∈ P ∨ ∃ q ∈ L, d ∈ q.2.outs) ∧
  ¬ HasCycle L ∧
  (∀ f ∈ cbFiles, f ∈ knownFiles L P) ∧
  (∀ u ∈ cbExecs, u ∈ keysOf L)

/-- Constructor class of a `check_dag` outcome (payloads ignored), used to
state determinism of the result variant. -/
def resClass : CheckResult → Nat
  | .ok => 0
  | .err (.MissingFile _ _) => 1
  | .err (.MissingExecution _) => 2
  | .err (.CycleDetected _) => 3
  | .err (.DuplicateExecutionUUID _) => 4
  | .err (.DuplicateFileUUID _) => 5
  | .panicked => 6
  | .fuelOut => 7

/-- The invariant of the traversal loop.  `DF` are the files already drained
from the ready-files queue and `DE` the executions already drained from the
ready-executions queue, in order. -/
structure Inv (L : List (ExecutionUuid × Execution)) (P : List FileUuid)
    (nd : List (ExecutionUuid × Nat)) (re : List ExecutionUuid)
    (rf : List FileUuid) (DF : List FileUuid) (DE : List ExecutionUuid) : Prop where
  ndEq : nd = L.map (fun p => (p.1, remaining p.2.deps DF))
  filesPerm : (DF ++ rf).Perm (P ++ outsOfList L DE)
  deNodup : (DE ++ re).Nodup
  deKeys : ∀ u ∈ DE ++ re, u ∈ keysOf L
  zeroIff : ∀ p ∈ L, (remaining p.2.deps DF = 0 ↔ p.1 ∈ DE ++ re)
  availF : ∀ f ∈ DF ++ rf, Avail L P f

/-! ### Client model (`src/src/executor/client.rs`) -/

/-- Modelled from the spec: the per-file callback registry (`FileCallbacks`
lives in `src/src/execution/file.rs`, which is not in the source tree).  Per
the data model, a file may carry `write_to(path)` and `get_content(byte_limit,
sink)`; the sink closure is left abstract — only the argument the client
passes to it is modelled. -/
structure FileCallbacks where
  write_to : Option String
  get_content : Option Nat
deriving DecidableEq

/-- The byte buffer `ExecutorClient::evaluate` passes to a `get_content`
callback when the server delivers a file (`client.rs` line 58): the literal
placeholder `vec![1, 2, 3, 42]`, independent of the file's actual content. -/
def provideFileContentArg (fileCallbacks : List (FileUuid × FileCallbacks))
    (uuid : FileUuid) : Option (List Nat) :=
  match alookup fileCallbacks uuid with
  | none => none
  | some cb =>
    match cb.get_content with
    | none => none
    | some _limit => some [1, 2, 3, 42]

/-- Modelled from the spec: the bytes a `get_content(byte_limit, sink)`
callback must receive — the first `limit` bytes of the file's actual
content. -/
def specContentArg (content : List Nat) (limit : Nat) : List Nat :=
  content.take limit

/-- Messages the server sends to the client, from
`src/src/executor/mod.rs`-side of the protocol as consumed by `client.rs`
(payloads irrelevant to the modelled control flow are collapsed to `Nat`). -/
inductive ExecutorServerMessage where
  | AskFile (uuid : FileUuid)
  | ProvideFile (uuid : FileUuid)
  | NotifyStart (uuid : ExecutionUuid) (worker : Nat)
  | NotifyDone (uuid : ExecutionUuid) (result : Nat)
  | NotifySkip (uuid : ExecutionUuid)
  | ErrorMsg (msg : String)
  | Status (status : Nat)
  | Done
deriving DecidableEq

/-- One event observed by the client's receive loop: a successfully
deserialized message, or a deserialization error with its root-cause text. -/
inductive RecvEvent where
  | msg (m : ExecutorServerMessage)
  | recvErr (cause : String)
deriving DecidableEq

/-- Outcome of the receive loop of `ExecutorClient::evaluate`: `finishedOk`
is the `Ok(())` return; `blocked` marks a run whose event script ends without
any loop exit (the Rust loop would keep waiting for more messages). -/
inductive EvalResult where
  | finishedOk
  | blocked
deriving DecidableEq

/-- The receive loop of `ExecutorClient::evaluate` (`client.rs` lines
38-112), driven by the script of received events.  `Done` and `Error` break
the loop; a deserialization error whose root cause is
"receiving on a closed channel" breaks the loop; every other event (including
any other deserialization error) continues it.  All break paths fall through
to `Ok(())`. -/
def evaluateRecvLoop : List RecvEvent → EvalResult
  | [] => .blocked
  | .msg .Done :: _ => .finishedOk
  | .msg (.ErrorMsg _) :: _ => .finishedOk
  | .msg _ :: rest => evaluateRecvLoop rest
  | .recvErr cause :: rest =>
    if cause = "receiving on a closed channel" then .finishedOk
    else evaluateRecvLoop rest

/-! ### Remote-connection model (`src/src/remote.rs`) -/

/-- Error of one connection attempt: a `std::io::Error` (network failure) or
any other error (wrong password, version mismatch, ...), distinguished by the
`downcast_ref::<std::io::Error>()` test in `connect_to_remote_server`. -/
inductive ConnectError where
  | ioError (msg : String)
  | otherError (msg : String)
deriving DecidableEq

/-- The per-address loop of `connect_to_remote_server` (`remote.rs` lines
38-63).  `attempt` abstracts `connect_channel`/`connect_channel_with_enc`
(addresses and channel pairs are abstract `Nat`s).  Returns the outcome
together with the list of addresses actually attempted: the first success
returns its channel; an `ioError` records the error and moves on; any other
error records the error and breaks; an exhausted list bails with the last
recorded error. -/
def connectAttempts (attempt : Nat → Except ConnectError Nat) :
    List Nat → Option ConnectError → Except (Option ConnectError) Nat × List Nat
  | [], err => (.error err, [])
  | a :: rest, _ =>
    match attempt a with
    | .ok c => (.ok c, [a])
    | .error (.ioError m) =>
      let r := connectAttempts attempt rest (some (.ioError m))
      (r.1, a :: r.2)
    | .error (.otherError m) => (.error (some (.otherError m)), [a])

/-- Entry point of the retry loop (starts with no recorded error). -/
def connectOverAddrs (attempt : Nat → Except ConnectError Nat) (addrs : List Nat) :
    Except (Option ConnectError) Nat × List Nat :=
  connectAttempts attempt addrs none

/-- Whether an attempt outcome is a network I/O failure. -/
def isIoFailure : Except ConnectError Nat → Prop
  | .error (.ioError _) => True
  | _ => False

/-- Parse errors of the `url` crate as discriminated by
`connect_to_remote_server`: `RelativeUrlWithoutBase` (the input has no
scheme) is handled specially, every other parse error is abstracted by a
code. -/
inductive UrlParseError where
  | RelativeUrlWithoutBase
  | OtherParse (code : Nat)
deriving DecidableEq

/-- A parsed URL; only its identity matters to the fallback logic. -/
structure Url where
  scheme : String
  rest : String
deriving DecidableEq

/-- The URL-parsing step of `connect_to_remote_server` (`remote.rs` lines
14-20), over an abstract parser standing for `Url::parse`: on
`RelativeUrlWithoutBase` the input is re-parsed with the prefix "tcp://"
prepended (the `?` propagating a failure of that re-parse), any other parse
failure is returned as the error. -/
def parse_server_url (parse : String → Except UrlParseError Url) (s : String) :
    Except UrlParseError Url :=
  match parse s with
  | .ok u => .ok u
  | .error .RelativeUrlWithoutBase => parse ("tcp://" ++ s)
  | .error e => .error e

/-- The ready-executions queue seeded by phase 1: executions with no
dependencies, in map order. -/
def seedsOf : List (ExecutionUuid × Execution) → List ExecutionUuid
  | [] => []
  | p :: rest => (if p.2.deps.length = 0 then [p.1] else []) ++ seedsOf rest

/-! ### Concrete instances used by counterexamples and witnesses -/

/-- Execution depending on the absent file 99. -/
def execMissing : Execution := ⟨1, "a", [99], []⟩

/-- Execution consuming file 20 and producing file 21 (half of a cycle). -/
def execCycB : Execution := ⟨2, "b", [20], [21]⟩

/-- Execution consuming file 21 and producing file 20 (half of a cycle). -/
def execCycC : Execution := ⟨3, "c", [21], [20]⟩

/-- DAG with a missing dependency and a two-execution cycle, missing-dep
entry first. -/
def dagMixA : List (ExecutionUuid × Execution) :=
  [(1, execMissing), (2, execCycB), (3, execCycC)]

/-- The same DAG contents with the cycle entries first. -/
def dagMixB : List (ExecutionUuid × Execution) :=
  [(2, execCycB), (3, execCycC), (1, execMissing)]

/-- A demonstration connection oracle: address 0 refuses the connection with
a network I/O error, every other address connects, yielding channel
`a + 4`. -/
def demoAttempt : Nat → Except ConnectError Nat := fun a =>
  if a = 0 then .error (.ioError "connection refused") else .ok (a + 4)

/-- A demonstration URL parser: the fully qualified form parses, the bare
`host:port` form is reported as a relative URL without base, and anything
else fails with a generic parse error. -/
def demoParse : String → Except UrlParseError Url := fun s =>
  if s = "tcp://host:1234" then .ok ⟨"tcp", "host:1234"⟩
  else if s = "host:1234" then .error .RelativeUrlWithoutBase
  else .error (.OtherParse 0)

/-! ### Counting and lookup lemmas -/

theorem cnt_append {α : Type} [DecidableEq α] (a : α) (l₁ l₂ : List α) :
    cnt a (l₁ ++ l₂) = cnt a l₁ + cnt a l₂ := by
  induction l₁ with
  | nil => simp [cnt]
  | cons b t ih => simp [cnt, ih, Nat.add_assoc]

theorem cnt_cons {α : Type} [DecidableEq α] (a b : α) (t : List α) :
    cnt a (b :: t) = (if b = a then 1 else 0) + cnt a t := rfl

theorem cnt_replicate {α : Type} [DecidableEq α] (a b : α) (n : Nat) :
    cnt a (List.replicate n b) = if b = a then n else 0 := by
  induction n with
  | zero => simp [cnt]
  | succ n ih =>
    rw [List.replicate_succ, cnt_cons, ih]
    by_cases h : b = a <;> (simp [h]; try omega)

theorem cnt_eq_zero {α : Type} [DecidableEq α] {a : α} {l : List α} :
    cnt a l = 0 ↔ a ∉ l := by
  induction l with
  | nil => simp [cnt]
  | cons b t ih =>
    rw [cnt_cons]
    by_cases h : b = a
    · subst h
      simp
    · have h' : ¬ a = b := fun hc => h hc.symm
      simp [h, h', ih]

theorem cnt_pos {α : Type} [DecidableEq α] {a : α} {l : List α} :
    0 < cnt a l ↔ a ∈ l := by
  rw [Nat.pos_iff_ne_zero, ne_eq, cnt_eq_zero, not_not]

theorem two_le_cnt_of_not_nodup {α : Type} [DecidableEq α] {l : List α}
    (h : ¬ l.Nodup) : ∃ a, 2 ≤ cnt a l := by
  induction l with
  | nil => exact (h List.nodup_nil).elim
  | cons b t ih =>
    rw [List.nodup_cons] at h
    by_cases hb : b ∈ t
    · refine ⟨b, ?_⟩
      have h1 := cnt_pos.mpr hb
      rw [cnt_cons, if_pos rfl]
      omega
    · obtain ⟨a, ha⟩ := ih (fun hn => h ⟨hb, hn⟩)
      refine ⟨a, ?_⟩
      rw [cnt_cons]
      omega

theorem not_nodup_of_two_le_cnt {α : Type} [DecidableEq α] {l : List α} {a : α}
    (h : 2 ≤ cnt a l) : ¬ l.Nodup := by
  induction l with
  | nil => simp [cnt] at h
  | cons b t ih =>
    intro hn
    rw [List.nodup_cons] at hn
    rw [cnt_cons] at h
    by_cases hb : b = a
    · rw [if_pos hb] at h
      subst hb
      have h1 : 0 < cnt b t := by omega
      exact hn.1 (cnt_pos.mp h1)
    · rw [if_neg hb] at h
      exact ih (by omega) hn.2

theorem alookup_mem {α : Type} {m : List (ExecutionUuid × α)} {u : ExecutionUuid}
    {v : α} (h : alookup m u = some v) : (u, v) ∈ m := by
  induction m with
  | nil => simp [alookup] at h
  | cons p t ih =>
    obtain ⟨k, w⟩ := p
    by_cases hk : k = u
    · subst hk
      simp [alookup] at h
      simp [h]
    · simp [alookup, hk] at h
      exact List.mem_cons_of_mem _ (ih h)

theorem keysOf_cons {α : Type} (p : ExecutionUuid × α) (t : List (ExecutionUuid × α)) :
    keysOf (p :: t) = p.1 :: keysOf t := rfl

theorem keysOf_append {α : Type} (l₁ l₂ : List (ExecutionUuid × α)) :
    keysOf (l₁ ++ l₂) = keysOf l₁ ++ keysOf l₂ := by
  simp [keysOf]

theorem mem_keysOf {α : Type} {m : List (ExecutionUuid × α)} {p : ExecutionUuid × α}
    (h : p ∈ m) : p.1 ∈ keysOf m := List.mem_map_of_mem _ h

theorem alookup_eq_none {α : Type} {m : List (ExecutionUuid × α)} {u : ExecutionUuid} :
    alookup m u = none ↔ u ∉ keysOf m := by
  induction m with
  | nil => simp [alookup, keysOf]
  | cons p t ih =>
    obtain ⟨k, w⟩ := p
    simp only [alookup, keysOf_cons, List.mem_cons]
    by_cases hk : k = u
    · subst hk
      simp
    · rw [if_neg hk, ih]
      constructor
      · intro h hc
        rcases hc with hc | hc
        · exact hk hc.symm
        · exact h hc
      · intro h hc
        exact h (Or.inr hc)

theorem alookup_isSome {α : Type} {m : List (ExecutionUuid × α)} {u : ExecutionUuid} :
    (alookup m u).isSome = true ↔ u ∈ keysOf m := by
  cases h : alookup m u with
  | none =>
    have := alookup_eq_none.mp h
    simp [this]
  | some v =>
    have := mem_keysOf (alookup_mem h)
    simpa using this

theorem mem_alookup {α : Type} {m : List (ExecutionUuid × α)} {u : ExecutionUuid}
    {v : α} (hn : (keysOf m).Nodup) (h : (u, v) ∈ m) : alookup m u = some v := by
  induction m with
  | nil => simp at h
  | cons p t ih =>
    rw [keysOf_cons, List.nodup_cons] at hn
    rcases List.mem_cons.mp h with h' | h'
    · rw [← h']
      simp [alookup]
    · have hu : u ∈ keysOf t := by simpa using mem_keysOf h'
      have hne : ¬ p.1 = u := fun he => hn.1 (he ▸ hu)
      obtain ⟨k, w⟩ := p
      simp only [alookup]
      rw [if_neg hne]
      exact ih hn.2 h'

theorem keyInj {L : List (ExecutionUuid × Execution)} {p q : ExecutionUuid × Execution}
    (hn : (keysOf L).Nodup) (hp : p ∈ L) (hq : q ∈ L) (h : p.1 = q.1) : p = q := by
  have h1 : alookup L p.1 = some p.2 := mem_alookup hn (by simpa using hp)
  have h2 : alookup L q.1 = some q.2 := mem_alookup hn (by simpa using hq)
  rw [h] at h1
  rw [h1] at h2
  have h3 : p.2 = q.2 := by injection h2
  obtain ⟨a, b⟩ := p
  obtain ⟨c, d⟩ := q
  simp only at h h3
  rw [h, h3]

theorem alookup_append_some {α : Type} {m₁ : List (ExecutionUuid × α)}
    (m₂ : List (ExecutionUuid × α)) {u : ExecutionUuid} {v : α}
    (h : alookup m₁ u = some v) : alookup (m₁ ++ m₂) u = some v := by
  induction m₁ with
  | nil => simp [alookup] at h
  | cons p t ih =>
    obtain ⟨k, w⟩ := p
    by_cases hk : k = u
    · subst hk
      simp [alookup] at h ⊢
      exact h
    · simp [alookup, hk] at h ⊢
      exact ih h

theorem alookup_append_none {α : Type} {m₁ : List (ExecutionUuid × α)}
    (m₂ : List (ExecutionUuid × α)) {u : ExecutionUuid}
    (h : alookup m₁ u = none) : alookup (m₁ ++ m₂) u = alookup m₂ u := by
  induction m₁ with
  | nil => simp
  | cons p t ih =>
    obtain ⟨k, w⟩ := p
    by_cases hk : k = u
    · subst hk
      simp [alookup] at h
    · simp [alookup, hk] at h ⊢
      exact ih h

/-! ### Lemmas about `remaining` -/

theorem remaining_cons (d : FileUuid) (t : List FileUuid) (X : List FileUuid) :
    remaining (d :: t) X = (if d ∈ X then 0 else 1) + remaining t X := by
  by_cases h : d ∈ X
  · simp [remaining, List.filter_cons, h]
  · simp [remaining, List.filter_cons, h]
    omega

theorem remaining_nil_right (ds : List FileUuid) : remaining ds [] = ds.length := by
  induction ds with
  | nil => simp [remaining]
  | cons d t ih =>
    simp [remaining_cons, ih]
    omega

theorem remaining_eq_zero {ds DF : List FileUuid} :
    remaining ds DF = 0 ↔ ∀ d ∈ ds, d ∈ DF := by
  induction ds with
  | nil => simp [remaining]
  | cons d t ih =>
    rw [remaining_cons]
    by_cases h : d ∈ DF <;> simp [h, ih]

theorem remaining_pos {ds DF : List FileUuid} :
    0 < remaining ds DF ↔ ∃ d ∈ ds, d ∉ DF := by
  rw [Nat.pos_iff_ne_zero, ne_eq, remaining_eq_zero]
  push_neg
  rfl

theorem cnt_le_remaining {f : FileUuid} {DF : List FileUuid} (ds : List FileUuid)
    (h : f ∉ DF) : cnt f ds ≤ remaining ds DF := by
  induction ds with
  | nil => simp [cnt, remaining]
  | cons d t ih =>
    rw [remaining_cons, cnt_cons]
    by_cases hd : d = f
    · rw [if_pos hd, if_neg (show d ∉ DF by rw [hd]; exact h)]
      omega
    · rw [if_neg hd]
      by_cases hdf : d ∈ DF
      · rw [if_pos hdf]
        omega
      · rw [if_neg hdf]
        omega

theorem remaining_append_singleton {f : FileUuid} {DF : List FileUuid}
    (ds : List FileUuid) (h : f ∉ DF) :
    remaining ds (DF ++ [f]) = remaining ds DF - cnt f ds := by
  induction ds with
  | nil => simp [remaining, cnt]
  | cons d t ih =>
    have hle := cnt_le_remaining t h
    rw [remaining_cons, remaining_cons, cnt_cons, ih]
    by_cases hd : d = f
    · rw [if_pos (show d ∈ DF ++ [f] by rw [hd]; simp),
          if_neg (show d ∉ DF by rw [hd]; exact h), if_pos hd]
      omega
    · have hiff : (d ∈ DF ++ [f]) ↔ d ∈ DF := by simp [hd]
      rw [if_congr hiff rfl rfl, if_neg hd]
      by_cases hdf : d ∈ DF
      · rw [if_pos hdf]
        omega
      · rw [if_neg hdf]
        omega

/-! ### Outputs, consumers and sub-permutations -/

theorem subperm_nodup {α : Type} {l₁ l₂ : List α} (h : List.Subperm l₁ l₂) (hn : l₂.Nodup) :
    l₁.Nodup := by
  obtain ⟨l, hp, hs⟩ := h
  exact hp.nodup_iff.mp (hn.sublist hs)

theorem subperm_append_left_compat {α : Type} (l : List α) {l₁ l₂ : List α}
    (h : List.Subperm l₁ l₂) : List.Subperm (l ++ l₁) (l ++ l₂) := by
  obtain ⟨m, hp, hs⟩ := h
  exact ⟨l ++ m, hp.append_left l, hs.append_left l⟩

theorem outsConcat_perm {L1 L2 : List (ExecutionUuid × Execution)} (h : L1.Perm L2) :
    (outsConcat L1).Perm (outsConcat L2) := by
  induction h with
  | nil => exact List.Perm.refl _
  | cons x _ ih =>
    exact ih.append_left x.2.outs
  | swap x y t =>
    show (y.2.outs ++ (x.2.outs ++ outsConcat t)).Perm
      (x.2.outs ++ (y.2.outs ++ outsConcat t))
    rw [← List.append_assoc, ← List.append_assoc]
    exact List.perm_append_comm.append_right _
  | trans _ _ ih1 ih2 => exact ih1.trans ih2

theorem mem_outsConcat {L : List (ExecutionUuid × Execution)} {f : FileUuid} :
    f ∈ outsConcat L ↔ ∃ p ∈ L, f ∈ p.2.outs := by
  induction L with
  | nil => simp [outsConcat]
  | cons p t ih => simp [outsConcat, ih]

theorem mem_consumersSpec {L : List (ExecutionUuid × Execution)} {f : FileUuid}
    {u : ExecutionUuid} (h : u ∈ consumersSpec L f) : u ∈ keysOf L := by
  induction L with
  | nil => simp [consumersSpec] at h
  | cons p t ih =>
    simp only [consumersSpec, List.mem_append] at h
    rw [keysOf_cons]
    rcases h with h | h
    · rw [List.eq_of_mem_replicate h]
      exact List.mem_cons_self _ _
    · exact List.mem_cons_of_mem _ (ih h)

theorem cnt_consumersSpec {L : List (ExecutionUuid × Execution)} {f : FileUuid}
    {u : ExecutionUuid} {e : Execution} (hn : (keysOf L).Nodup) (h : (u, e) ∈ L) :
    cnt u (consumersSpec L f) = cnt f e.deps := by
  induction L with
  | nil => simp at h
  | cons p t ih =>
    rw [keysOf_cons, List.nodup_cons] at hn
    simp only [consumersSpec]
    rw [cnt_append, cnt_replicate]
    rcases List.mem_cons.mp h with h' | h'
    · have hu : p.1 = u := by rw [← h']
      have he : p.2 = e := by rw [← h']
      have hnott : u ∉ keysOf t := hu ▸ hn.1
      have h0 : cnt u (consumersSpec t f) = 0 :=
        cnt_eq_zero.mpr (fun hc => hnott (mem_consumersSpec hc))
      rw [if_pos hu, he, h0]
      omega
    · have hu : u ∈ keysOf t := by simpa using mem_keysOf h'
      have hne : ¬ p.1 = u := fun heq => hn.1 (heq ▸ hu)
      rw [if_neg hne, ih hn.2 h']
      omega

theorem outsOfList_append (L : List (ExecutionUuid × Execution))
    (es₁ es₂ : List ExecutionUuid) :
    outsOfList L (es₁ ++ es₂) = outsOfList L es₁ ++ outsOfList L es₂ := by
  induction es₁ with
  | nil => simp [outsOfList]
  | cons u t ih => simp [outsOfList, ih]

theorem outsOfList_congr {L M : List (ExecutionUuid × Execution)}
    {es : List ExecutionUuid} (h : ∀ u ∈ es, outsOf L u = outsOf M u) :
    outsOfList L es = outsOfList M es := by
  induction es with
  | nil => rfl
  | cons u t ih =>
    simp only [outsOfList]
    rw [h u (List.mem_cons_self _ _), ih (fun v hv => h v (List.mem_cons_of_mem _ hv))]

theorem outsOf_eq_of_mem {L : List (ExecutionUuid × Execution)} {u : ExecutionUuid}
    {e : Execution} (hn : (keysOf L).Nodup) (h : (u, e) ∈ L) : outsOf L u = e.outs := by
  simp [outsOf, execsGet, mem_alookup hn h]

theorem outsOfList_keys {L : List (ExecutionUuid × Execution)}
    (hn : (keysOf L).Nodup) : outsOfList L (keysOf L) = outsConcat L := by
  induction L with
  | nil => rfl
  | cons p t ih =>
    rw [keysOf_cons] at hn ⊢
    rw [List.nodup_cons] at hn
    show outsOf (p :: t) p.1 ++ outsOfList (p :: t) (keysOf t) = p.2.outs ++ outsConcat t
    obtain ⟨k, w⟩ := p
    have h1 : outsOf ((k, w) :: t) k = w.outs := by
      simp [outsOf, execsGet, alookup]
    have h2 : outsOfList ((k, w) :: t) (keysOf t) = outsOfList t (keysOf t) := by
      apply outsOfList_congr
      intro u hu
      have hne : ¬ k = u := fun he => hn.1 (he ▸ hu)
      simp [outsOf, execsGet, alookup, hne]
    rw [h1, h2, ih hn.2]

theorem outsOfList_sublist (L : List (ExecutionUuid × Execution))
    {es₁ es₂ : List ExecutionUuid} (h : es₁.Sublist es₂) :
    (outsOfList L es₁).Sublist (outsOfList L es₂) := by
  induction h with
  | slnil => exact List.Sublist.refl _
  | cons a _ ih => exact ih.trans (List.sublist_append_right _ _)
  | cons₂ a _ ih => exact ih.append_left _

theorem outsOfList_perm (L : List (ExecutionUuid × Execution))
    {es₁ es₂ : List ExecutionUuid} (h : es₁.Perm es₂) :
    (outsOfList L es₁).Perm (outsOfList L es₂) := by
  induction h with
  | nil => exact List.Perm.refl _
  | cons x _ ih => exact ih.append_left (outsOf L x)
  | swap x y t =>
    show (outsOf L y ++ (outsOf L x ++ outsOfList L t)).Perm
      (outsOf L x ++ (outsOf L y ++ outsOfList L t))
    rw [← List.append_assoc, ← List.append_assoc]
    exact List.perm_append_comm.append_right _
  | trans _ _ ih1 ih2 => exact ih1.trans ih2

theorem outsOfList_subperm {L : List (ExecutionUuid × Execution)}
    {es : List ExecutionUuid} (hn : es.Nodup) (hk : ∀ u ∈ es, u ∈ keysOf L)
    (hKn : (keysOf L).Nodup) : List.Subperm (outsOfList L es) (outsConcat L) := by
  have h1 : List.Subperm es (keysOf L) := hn.subperm (fun u hu => hk u hu)
  obtain ⟨l, hp, hs⟩ := h1
  refine ⟨outsOfList L l, outsOfList_perm L hp, ?_⟩
  have h2 := outsOfList_sublist L hs
  rwa [outsOfList_keys hKn] at h2

/-! ### The decrement step of the traversal -/

theorem keysOf_ndUpdate (nd : List (ExecutionUuid × Nat)) (u : ExecutionUuid)
    (v : Nat) : keysOf (ndUpdate nd u v) = keysOf nd := by
  induction nd with
  | nil => rfl
  | cons p t ih =>
    obtain ⟨k, w⟩ := p
    simp only [ndUpdate, keysOf_cons, ih]

theorem alookup_ndUpdate_self {nd : List (ExecutionUuid × Nat)} {u : ExecutionUuid}
    {n : Nat} (v : Nat) (h : alookup nd u = some n) :
    alookup (ndUpdate nd u v) u = some v := by
  induction nd with
  | nil => simp [alookup] at h
  | cons p t ih =>
    obtain ⟨k, w⟩ := p
    by_cases hk : k = u
    · simp [ndUpdate, alookup, hk]
    · rw [alookup, if_neg hk] at h
      simp only [ndUpdate, alookup]
      rw [if_neg hk]
      exact ih h

theorem alookup_ndUpdate_ne {nd : List (ExecutionUuid × Nat)} {u w : ExecutionUuid}
    (v : Nat) (h : ¬ w = u) : alookup (ndUpdate nd u v) w = alookup nd w := by
  induction nd with
  | nil => rfl
  | cons p t ih =>
    obtain ⟨k, q⟩ := p
    simp only [ndUpdate, alookup]
    by_cases hkw : k = w
    · rw [if_pos hkw, if_pos hkw]
      have hku : ¬ k = u := fun hc => h (by rw [← hkw]; exact hc)
      rw [if_neg hku]
    · rw [if_neg hkw, if_neg hkw]
      exact ih

theorem map_sub_cnt_nil (nd : List (ExecutionUuid × Nat)) :
    nd.map (fun p => (p.1, p.2 - cnt p.1 ([] : List ExecutionUuid))) = nd := by
  induction nd with
  | nil => rfl
  | cons p t ih =>
    rw [List.map_cons, ih, show cnt p.1 ([] : List ExecutionUuid) = 0 from rfl,
      Nat.sub_zero]

theorem ndUpdate_not_mem {nd : List (ExecutionUuid × Nat)} {u : ExecutionUuid}
    (v : Nat) (h : u ∉ keysOf nd) : ndUpdate nd u v = nd := by
  induction nd with
  | nil => rfl
  | cons p t ih =>
    obtain ⟨k, w⟩ := p
    rw [keysOf_cons, List.mem_cons] at h
    push_neg at h
    simp only [ndUpdate]
    rw [if_neg (fun hc => h.1 hc.symm), ih h.2]

theorem ndUpdate_map_sub (rest : List ExecutionUuid) :
    ∀ (nd : List (ExecutionUuid × Nat)) (c : ExecutionUuid) (m : Nat),
    (keysOf nd).Nodup → alookup nd c = some (m + 1) →
    (ndUpdate nd c m).map (fun p => (p.1, p.2 - cnt p.1 rest)) =
      nd.map (fun p => (p.1, p.2 - cnt p.1 (c :: rest))) := by
  intro nd
  induction nd with
  | nil =>
    intro c m _ hn
    simp [alookup] at hn
  | cons p t ih =>
    intro c m hK hn
    obtain ⟨k, w⟩ := p
    rw [keysOf_cons, List.nodup_cons] at hK
    simp only [ndUpdate, List.map_cons]
    by_cases hk : k = c
    · have hw : w = m + 1 := by
        rw [alookup, if_pos hk] at hn
        injection hn
      have hct : c ∉ keysOf t := by
        rw [← hk]
        exact hK.1
      rw [if_pos hk, ndUpdate_not_mem m (by rw [← hk]; exact hK.1)]
      have hhead : m - cnt k rest = w - cnt k (c :: rest) := by
        rw [hw, cnt_cons, if_pos hk.symm]
        omega
      rw [hhead]
      congr 1
      apply List.map_congr_left
      intro q hq
      have hqc : ¬ q.1 = c := fun hc => hct (hc ▸ mem_keysOf hq)
      rw [cnt_cons, if_neg (fun hc => hqc hc.symm), Nat.zero_add]
    · have hn' : alookup t c = some (m + 1) := by
        rw [alookup, if_neg hk] at hn
        exact hn
      rw [if_neg hk, ih c m hK.2 hn']
      have hkc : cnt k (c :: rest) = cnt k rest := by
        rw [cnt_cons, if_neg (fun hc => hk hc.symm), Nat.zero_add]
      rw [hkc]

theorem drainConsumers_spec (cs : List ExecutionUuid) :
    ∀ (nd : List (ExecutionUuid × Nat)) (re : List ExecutionUuid),
    (keysOf nd).Nodup →
    (∀ u ∈ cs, ∃ n, alookup nd u = some n ∧ cnt u cs ≤ n) →
    ∃ zs, drainConsumers cs nd re =
        some (nd.map (fun p => (p.1, p.2 - cnt p.1 cs)), re ++ zs) ∧
      zs.Nodup ∧
      ∀ u, u ∈ zs ↔ (u ∈ cs ∧ alookup nd u = some (cnt u cs)) := by
  induction cs with
  | nil =>
    intro nd re _ _
    refine ⟨[], ?_, List.nodup_nil, by simp⟩
    simp [drainConsumers, map_sub_cnt_nil]
  | cons c rest ih =>
    intro nd re hK H
    obtain ⟨n, hn, hcnt⟩ := H c (List.mem_cons_self _ _)
    have hc1 : 1 ≤ cnt c (c :: rest) := by
      rw [cnt_cons, if_pos rfl]
      omega
    obtain ⟨m, rfl⟩ : ∃ m, n = m + 1 := ⟨n - 1, by omega⟩
    have hupd := alookup_ndUpdate_self m hn
    have hKu : (keysOf (ndUpdate nd c m)).Nodup := by
      rw [keysOf_ndUpdate]
      exact hK
    have hcrest : cnt c (c :: rest) = 1 + cnt c rest := by
      rw [cnt_cons, if_pos rfl]
    -- hypotheses of the induction for the updated counters
    have H' : ∀ u ∈ rest, ∃ n', alookup (ndUpdate nd c m) u = some n' ∧
        cnt u rest ≤ n' := by
      intro u hu
      by_cases huc : u = c
      · subst huc
        refine ⟨m, hupd, ?_⟩
        have : cnt u (u :: rest) = 1 + cnt u rest := by
          rw [cnt_cons, if_pos rfl]
        omega
      · obtain ⟨n', hn', hcnt'⟩ := H u (List.mem_cons_of_mem _ hu)
        refine ⟨n', by rw [alookup_ndUpdate_ne m huc]; exact hn', ?_⟩
        have : cnt u (c :: rest) = cnt u rest := by
          rw [cnt_cons, if_neg (fun hc => huc hc.symm), Nat.zero_add]
        omega
    -- the fused counter maps agree
    have hmapeq : (ndUpdate nd c m).map (fun p => (p.1, p.2 - cnt p.1 rest)) =
        nd.map (fun p => (p.1, p.2 - cnt p.1 (c :: rest))) :=
      ndUpdate_map_sub rest nd c m hK hn
    by_cases hm : m = 0
    · -- the counter of c reaches zero: c is enqueued now
      subst hm
      have hdec : decOne nd re c = some (ndUpdate nd c 0, re ++ [c]) := by
        simp [decOne, hn]
      have hcr : cnt c (c :: rest) = 1 := by omega
      have hrest0 : cnt c rest = 0 := by omega
      have hcnotr : c ∉ rest := cnt_eq_zero.mp hrest0
      obtain ⟨zs', heq, hnod, hchar⟩ := ih (ndUpdate nd c 0) (re ++ [c]) hKu H'
      have hcz : c ∉ zs' := by
        intro hc
        exact hcnotr ((hchar c).mp hc).1
      refine ⟨c :: zs', ?_, hnod.cons hcz, ?_⟩
      · rw [show drainConsumers (c :: rest) nd re = drainConsumers rest (ndUpdate nd c 0) (re ++ [c]) by
          simp [drainConsumers, hdec]]
        rw [heq, hmapeq, List.append_assoc]
        rfl
      · intro u
        by_cases huc : u = c
        · subst huc
          constructor
          · intro _
            exact ⟨List.mem_cons_self _ _, by rw [hn, hcr]⟩
          · intro _
            exact List.mem_cons_self _ _
        · have h1 : (u ∈ c :: zs') ↔ u ∈ zs' := by
            simp [huc]
          have h2 : (u ∈ c :: rest) ↔ u ∈ rest := by
            simp [huc]
          rw [h1, hchar u, h2, alookup_ndUpdate_ne 0 huc,
            show cnt u (c :: rest) = cnt u rest by
              rw [cnt_cons, if_neg (fun hc => huc hc.symm), Nat.zero_add]]
    · -- the counter of c stays positive
      have hdec : decOne nd re c = some (ndUpdate nd c m, re) := by
        simp [decOne, hn, hm]
      obtain ⟨zs', heq, hnod, hchar⟩ := ih (ndUpdate nd c m) re hKu H'
      refine ⟨zs', ?_, hnod, ?_⟩
      · rw [show drainConsumers (c :: rest) nd re = drainConsumers rest (ndUpdate nd c m) re by
          simp [drainConsumers, hdec]]
        rw [heq, hmapeq]
      · intro u
        by_cases huc : u = c
        · subst huc
          rw [hchar u]
          constructor
          · rintro ⟨hur, hlu⟩
            rw [hupd] at hlu
            have hmeq : m = cnt u rest := by injection hlu
            refine ⟨List.mem_cons_self _ _, ?_⟩
            rw [hn, hcrest, ← hmeq, Nat.add_comm 1 m]
          · rintro ⟨_, hlu⟩
            rw [hn] at hlu
            have hmeq : m + 1 = cnt u (u :: rest) := by injection hlu
            rw [cnt_cons, if_pos rfl] at hmeq
            have hr : cnt u rest = m := by omega
            have hur : u ∈ rest := cnt_pos.mp (by omega)
            exact ⟨hur, by rw [hupd, hr]⟩
        · have h2 : (u ∈ c :: rest) ↔ u ∈ rest := by
            simp [huc]
          rw [hchar u, h2, alookup_ndUpdate_ne m huc,
            show cnt u (c :: rest) = cnt u rest by
              rw [cnt_cons, if_neg (fun hc => huc hc.symm), Nat.zero_add]]

/-! ### Draining one ready-files queue under the invariant -/

theorem keysOf_map_formula (L : List (ExecutionUuid × Execution)) (DF : List FileUuid) :
    keysOf (L.map (fun p => (p.1, remaining p.2.deps DF))) = keysOf L := by
  induction L with
  | nil => rfl
  | cons p t ih => simp only [List.map_cons, keysOf_cons, ih]

theorem entry_of_key {L : List (ExecutionUuid × Execution)} {u : ExecutionUuid}
    (h : u ∈ keysOf L) : ∃ e, (u, e) ∈ L := by
  obtain ⟨p, hp, hp1⟩ := List.mem_map.mp h
  refine ⟨p.2, ?_⟩
  rw [← hp1]
  simpa using hp

theorem alookup_formula {L : List (ExecutionUuid × Execution)} (hK : (keysOf L).Nodup)
    (DF : List FileUuid) {u : ExecutionUuid} {e : Execution} (h : (u, e) ∈ L) :
    alookup (L.map (fun p => (p.1, remaining p.2.deps DF))) u =
      some (remaining e.deps DF) := by
  apply mem_alookup
  · rw [keysOf_map_formula]
    exact hK
  · exact List.mem_map_of_mem _ h

theorem nd_formula_step {L : List (ExecutionUuid × Execution)}
    (hK : (keysOf L).Nodup) (DF : List FileUuid) (f : FileUuid) (hf : f ∉ DF) :
    (L.map (fun p => (p.1, remaining p.2.deps DF))).map
        (fun p => (p.1, p.2 - cnt p.1 (consumersSpec L f))) =
      L.map (fun p => (p.1, remaining p.2.deps (DF ++ [f]))) := by
  rw [List.map_map]
  apply List.map_congr_left
  intro p hp
  have hcnt : cnt p.1 (consumersSpec L f) = cnt f p.2.deps :=
    cnt_consumersSpec hK (by simpa using hp)
  simp only [Function.comp_apply]
  rw [hcnt, remaining_append_singleton p.2.deps hf]

theorem inv_files_nodup {L : List (ExecutionUuid × Execution)} {P nd re rf DF DE}
    (hK : (keysOf L).Nodup) (hGlob : (P ++ outsConcat L).Nodup)
    (hinv : Inv L P nd re rf DF DE) : (DF ++ rf).Nodup := by
  have hDEn : DE.Nodup := hinv.deNodup.of_append_left
  have hDEk : ∀ u ∈ DE, u ∈ keysOf L :=
    fun u hu => hinv.deKeys u (List.mem_append_left _ hu)
  have h1 := outsOfList_subperm hDEn hDEk hK
  have h2 := subperm_append_left_compat P h1
  exact hinv.filesPerm.nodup_iff.mpr (subperm_nodup h2 hGlob)

theorem inv_H {L : List (ExecutionUuid × Execution)} {P nd re rf DF DE}
    (hK : (keysOf L).Nodup) (hinv : Inv L P nd re rf DF DE) {f : FileUuid}
    (hf : f ∉ DF) :
    ∀ u ∈ consumersSpec L f,
      ∃ n, alookup nd u = some n ∧ cnt u (consumersSpec L f) ≤ n := by
  intro u hu
  obtain ⟨e, hue⟩ := entry_of_key (mem_consumersSpec hu)
  refine ⟨remaining e.deps DF, ?_, ?_⟩
  · rw [hinv.ndEq]
    exact alookup_formula hK DF hue
  · rw [cnt_consumersSpec hK hue]
    exact cnt_le_remaining e.deps hf

theorem drainFiles_inv {L : List (ExecutionUuid × Execution)} {P : List FileUuid}
    (hK : (keysOf L).Nodup) (hGlob : (P ++ outsConcat L).Nodup) :
    ∀ (fs : List FileUuid) (nd : List (ExecutionUuid × Nat))
      (re : List ExecutionUuid) (DF : List FileUuid) (DE : List ExecutionUuid),
    Inv L P nd re fs DF DE →
    ∃ re', drainFiles (consumersSpec L) fs nd re =
        some (L.map (fun p => (p.1, remaining p.2.deps (DF ++ fs))), re') ∧
      Inv L P (L.map (fun p => (p.1, remaining p.2.deps (DF ++ fs)))) re' []
        (DF ++ fs) DE ∧ re.length ≤ re'.length := by
  intro fs
  induction fs with
  | nil =>
    intro nd re DF DE hinv
    refine ⟨re, ?_, ?_, le_refl _⟩
    · rw [show drainFiles (consumersSpec L) [] nd re = some (nd, re) from rfl,
        hinv.ndEq, List.append_nil]
    · rw [List.append_nil]
      exact ⟨rfl, by simpa using hinv.filesPerm, hinv.deNodup, hinv.deKeys,
        hinv.zeroIff, by simpa using hinv.availF⟩
  | cons f rest ih =>
    intro nd re DF DE hinv
    have hfn : (DF ++ f :: rest).Nodup := inv_files_nodup hK hGlob hinv
    have hfDF : f ∉ DF := by
      rcases List.nodup_append.mp hfn with ⟨_, _, hdisj⟩
      intro hc
      exact hdisj hc (List.mem_cons_self _ _)
    have hndK : (keysOf nd).Nodup := by
      rw [hinv.ndEq, keysOf_map_formula]
      exact hK
    obtain ⟨zs, heq, hzn, hchar⟩ :=
      drainConsumers_spec (consumersSpec L f) nd re hndK (inv_H hK hinv hfDF)
    -- membership in zs in terms of the dependency counters
    have hcharE : ∀ (u : ExecutionUuid) (e : Execution), (u, e) ∈ L →
        (u ∈ zs ↔ 0 < cnt f e.deps ∧ remaining e.deps DF = cnt f e.deps) := by
      intro u e hue
      rw [hchar u]
      have h1 : alookup nd u = some (remaining e.deps DF) := by
        rw [hinv.ndEq]
        exact alookup_formula hK DF hue
      have h2 : cnt u (consumersSpec L f) = cnt f e.deps := cnt_consumersSpec hK hue
      rw [h1, h2]
      constructor
      · rintro ⟨hmem, hsome⟩
        have h3 : remaining e.deps DF = cnt f e.deps := by injection hsome
        refine ⟨?_, h3⟩
        have := cnt_pos.mpr hmem
        rw [h2] at this
        exact this
      · rintro ⟨hpos, h3⟩
        refine ⟨?_, by rw [h3]⟩
        apply cnt_pos.mp
        rw [h2]
        exact hpos
    have hzsfresh : ∀ u ∈ zs, u ∉ DE ++ re := by
      intro u hu
      obtain ⟨e, hue⟩ := entry_of_key (mem_consumersSpec ((hchar u).mp hu).1)
      obtain ⟨hpos, hrem⟩ := (hcharE u e hue).mp hu
      intro hmem
      have h0 : remaining e.deps DF = 0 := (hinv.zeroIff (u, e) hue).mpr hmem
      omega
    have hinv' : Inv L P (L.map (fun p => (p.1, remaining p.2.deps (DF ++ [f]))))
        (re ++ zs) rest (DF ++ [f]) DE := by
      refine ⟨rfl, ?_, ?_, ?_, ?_, ?_⟩
      · rw [List.append_assoc]
        exact hinv.filesPerm
      · rw [← List.append_assoc]
        apply hinv.deNodup.append hzn
        intro u hu huz
        exact hzsfresh u huz hu
      · intro u hu
        rw [← List.append_assoc] at hu
        rcases List.mem_append.mp hu with hu | hu
        · exact hinv.deKeys u hu
        · exact mem_consumersSpec ((hchar u).mp hu).1
      · intro p hp
        have hue : (p.1, p.2) ∈ L := by simpa using hp
        have hold := hinv.zeroIff p hp
        have hrw := remaining_append_singleton p.2.deps hfDF
        have hle := cnt_le_remaining p.2.deps hfDF
        have hmem : p.1 ∈ DE ++ (re ++ zs) ↔ (p.1 ∈ DE ++ re ∨ p.1 ∈ zs) := by
          simp [List.mem_append, or_assoc]
        rw [hrw, hmem]
        by_cases h0 : remaining p.2.deps DF = 0
        · have hin : p.1 ∈ DE ++ re := hold.mp h0
          simp [h0, hin]
        · have hnotin : p.1 ∉ DE ++ re := fun hc => h0 (hold.mpr hc)
          have hz := hcharE p.1 p.2 hue
          constructor
          · intro hzero
            right
            exact hz.mpr ⟨by omega, by omega⟩
          · intro hc
            rcases hc with hc | hc
            · exact absurd hc hnotin
            · obtain ⟨hpos, hrem⟩ := hz.mp hc
              omega
      · intro x hx
        apply hinv.availF
        rw [List.append_assoc] at hx
        exact hx
    have hndstep : nd.map (fun p => (p.1, p.2 - cnt p.1 (consumersSpec L f))) =
        L.map (fun p => (p.1, remaining p.2.deps (DF ++ [f]))) := by
      rw [hinv.ndEq]
      exact nd_formula_step hK DF f hfDF
    obtain ⟨re', heq', hinv'', hlen⟩ := ih _ (re ++ zs) (DF ++ [f]) DE hinv'
    have hstep : drainFiles (consumersSpec L) (f :: rest) nd re =
        drainFiles (consumersSpec L) rest
          (nd.map (fun p => (p.1, p.2 - cnt p.1 (consumersSpec L f)))) (re ++ zs) := by
      simp only [drainFiles, heq]
    refine ⟨re', ?_, ?_, ?_⟩
    · rw [hstep, hndstep, heq', List.append_assoc, List.singleton_append]
    · rw [List.append_assoc, List.singleton_append] at hinv''
      exact hinv''
    · have h1 : re.length ≤ (re ++ zs).length := by
        rw [List.length_append]
        omega
      omega

/-! ### Draining the ready-executions queue -/

theorem mem_outsOfList {L : List (ExecutionUuid × Execution)}
    {es : List ExecutionUuid} {f : FileUuid} :
    f ∈ outsOfList L es ↔ ∃ u ∈ es, f ∈ outsOf L u := by
  induction es with
  | nil => simp [outsOfList]
  | cons u t ih => simp [outsOfList, ih]

theorem drainExecs_spec (L : List (ExecutionUuid × Execution)) :
    ∀ (es : List ExecutionUuid) (rf : List FileUuid),
    (∀ u ∈ es, u ∈ keysOf L) →
    drainExecs L es rf = some (rf ++ outsOfList L es) := by
  intro es
  induction es with
  | nil =>
    intro rf _
    simp [drainExecs, outsOfList]
  | cons u t ih =>
    intro rf hk
    have hu : u ∈ keysOf L := hk u (List.mem_cons_self _ _)
    have hsome : (execsGet L u).isSome = true := alookup_isSome.mpr hu
    cases hg : execsGet L u with
    | none =>
      rw [hg] at hsome
      simp at hsome
    | some e =>
      have hout : outsOf L u = e.outs := by simp [outsOf, hg]
      simp only [drainExecs, hg]
      rw [ih (rf ++ e.outs) (fun v hv => hk v (List.mem_cons_of_mem _ hv))]
      simp only [outsOfList, hout, List.append_assoc]

theorem drainExecs_inv {L : List (ExecutionUuid × Execution)} {P nd re DF DE}
    (hK : (keysOf L).Nodup) (hinv : Inv L P nd re [] DF DE) :
    drainExecs L re [] = some (outsOfList L re) ∧
    Inv L P nd [] (outsOfList L re) DF (DE ++ re) := by
  have hk : ∀ u ∈ re, u ∈ keysOf L :=
    fun u hu => hinv.deKeys u (List.mem_append_right _ hu)
  have hold := hinv.filesPerm
  rw [List.append_nil] at hold
  constructor
  · rw [drainExecs_spec L re [] hk]
    rfl
  · refine ⟨hinv.ndEq, ?_, ?_, ?_, ?_, ?_⟩
    · rw [outsOfList_append]
      have h1 : (DF ++ outsOfList L re).Perm
          ((P ++ outsOfList L DE) ++ outsOfList L re) := hold.append_right _
      rw [List.append_assoc] at h1
      exact h1
    · rw [List.append_nil]
      exact hinv.deNodup
    · intro u hu
      rw [List.append_nil] at hu
      exact hinv.deKeys u hu
    · intro p hp
      rw [List.append_nil]
      exact hinv.zeroIff p hp
    · intro x hx
      rcases List.mem_append.mp hx with hx | hx
      · exact hinv.availF x (List.mem_append_left _ (by simpa using hx))
      · obtain ⟨u, hu, hf⟩ := mem_outsOfList.mp hx
        obtain ⟨e, hue⟩ := entry_of_key (hk u hu)
        have hout : outsOf L u = e.outs := outsOf_eq_of_mem hK hue
        rw [hout] at hf
        have hz : remaining e.deps DF = 0 :=
          (hinv.zeroIff (u, e) hue).mpr (List.mem_append_right _ hu)
        refine Avail.out u e hue ?_ hf
        intro d hd
        have hdDF : d ∈ DF := remaining_eq_zero.mp hz d hd
        exact hinv.availF d (List.mem_append_left _ hdDF)

/-! ### The traversal loop -/

theorem visitLoop_eq_done (L : List (ExecutionUuid × Execution))
    (cons : FileUuid → List ExecutionUuid) (fuel : Nat)
    (nd : List (ExecutionUuid × Nat)) :
    visitLoop L cons fuel nd [] [] = .done nd := by
  rw [visitLoop.eq_def]
  simp

theorem visitLoop_zero (L : List (ExecutionUuid × Execution))
    (cons : FileUuid → List ExecutionUuid) (nd : List (ExecutionUuid × Nat))
    {re : List ExecutionUuid} {rf : List FileUuid}
    (hne : ¬ (re = [] ∧ rf = [])) :
    visitLoop L cons 0 nd re rf = .fuelOut := by
  simp only [visitLoop.eq_def, if_neg hne]

theorem visitLoop_step (L : List (ExecutionUuid × Execution))
    (cons : FileUuid → List ExecutionUuid) (fuel : Nat)
    {nd nd' : List (ExecutionUuid × Nat)} {re re' : List ExecutionUuid}
    {rf rf' : List FileUuid} (hne : ¬ (re = [] ∧ rf = []))
    (h1 : drainFiles cons rf nd re = some (nd', re'))
    (h2 : drainExecs L re' [] = some rf') :
    visitLoop L cons (fuel + 1) nd re rf = visitLoop L cons fuel nd' [] rf' := by
  conv_lhs => rw [visitLoop.eq_def]
  simp only [if_neg hne, h1, h2]

theorem inv_sizes {L : List (ExecutionUuid × Execution)} {P nd re rf DF DE}
    (hK : (keysOf L).Nodup) (hinv : Inv L P nd re rf DF DE) :
    DF.length + rf.length ≤ (P ++ outsConcat L).length ∧
    DE.length + re.length ≤ L.length := by
  constructor
  · have hsub : List.Subperm (outsOfList L DE) (outsConcat L) :=
      outsOfList_subperm hinv.deNodup.of_append_left
        (fun u hu => hinv.deKeys u (List.mem_append_left _ hu)) hK
    have hsp : List.Subperm (DF ++ rf) (P ++ outsConcat L) :=
      (hinv.filesPerm.subperm).trans (subperm_append_left_compat P hsub)
    have hlen := hsp.length_le
    rw [List.length_append] at hlen
    exact hlen
  · have hsp : List.Subperm (DE ++ re) (keysOf L) :=
      hinv.deNodup.subperm (fun u hu => hinv.deKeys u hu)
    have hlen := hsp.length_le
    rw [List.length_append] at hlen
    have hkl : (keysOf L).length = L.length := List.length_map L Prod.fst
    omega

theorem visitLoop_master {L : List (ExecutionUuid × Execution)} {P : List FileUuid}
    (hK : (keysOf L).Nodup) (hGlob : (P ++ outsConcat L).Nodup) :
    ∀ (fuel : Nat) (nd : List (ExecutionUuid × Nat)) (re : List ExecutionUuid)
      (rf : List FileUuid) (DF : List FileUuid) (DE : List ExecutionUuid),
    Inv L P nd re rf DF DE →
    (P ++ outsConcat L).length + L.length + 1 ≤ fuel + DF.length + DE.length →
    ∃ DF' DE', visitLoop L (consumersSpec L) fuel nd re rf =
        .done (L.map (fun p => (p.1, remaining p.2.deps DF'))) ∧
      Inv L P (L.map (fun p => (p.1, remaining p.2.deps DF'))) [] [] DF' DE' := by
  intro fuel
  induction fuel with
  | zero =>
    intro nd re rf DF DE hinv hfuel
    by_cases hq : re = [] ∧ rf = []
    · obtain ⟨h1, h2⟩ := hq
      subst h1
      subst h2
      refine ⟨DF, DE, ?_, ?_⟩
      · rw [visitLoop_eq_done, hinv.ndEq]
      · exact ⟨rfl, hinv.filesPerm, hinv.deNodup, hinv.deKeys, hinv.zeroIff,
          hinv.availF⟩
    · exfalso
      obtain ⟨hsz1, hsz2⟩ := inv_sizes hK hinv
      have hone : 1 ≤ rf.length + re.length := by
        by_cases hrf : rf = []
        · have hre : re ≠ [] := fun hc => hq ⟨hc, hrf⟩
          have := List.length_pos.mpr hre
          omega
        · have := List.length_pos.mpr hrf
          omega
      omega
  | succ fuel ih =>
    intro nd re rf DF DE hinv hfuel
    by_cases hq : re = [] ∧ rf = []
    · obtain ⟨h1, h2⟩ := hq
      subst h1
      subst h2
      refine ⟨DF, DE, ?_, ?_⟩
      · rw [visitLoop_eq_done, hinv.ndEq]
      · exact ⟨rfl, hinv.filesPerm, hinv.deNodup, hinv.deKeys, hinv.zeroIff,
          hinv.availF⟩
    · obtain ⟨re₁, heq1, hinv1, hlen1⟩ := drainFiles_inv hK hGlob rf nd re DF DE hinv
      obtain ⟨heq2, hinv2⟩ := drainExecs_inv hK hinv1
      have hstep := visitLoop_step L (consumersSpec L) fuel hq heq1 heq2
      have hgrow : 1 ≤ rf.length + re₁.length := by
        by_cases hrf : rf = []
        · have hre : re ≠ [] := fun hc => hq ⟨hc, hrf⟩
          have := List.length_pos.mpr hre
          omega
        · have := List.length_pos.mpr hrf
          omega
      have hfuel' : (P ++ outsConcat L).length + L.length + 1 ≤
          fuel + (DF ++ rf).length + (DE ++ re₁).length := by
        rw [List.length_append DF rf, List.length_append DE re₁]
        omega
      obtain ⟨DF', DE', hres, hinvf⟩ :=
        ih _ [] (outsOfList L re₁) (DF ++ rf) (DE ++ re₁) hinv2 hfuel'
      exact ⟨DF', DE', by rw [hstep, hres], hinvf⟩

/-! ### Characterisation of the registration phases -/

theorem addDepsList_eq (u : ExecutionUuid) :
    ∀ (ds : List FileUuid) (cons : FileUuid → List ExecutionUuid) (f : FileUuid),
    addDepsList u ds cons f = cons f ++ List.replicate (cnt f ds) u := by
  intro ds
  induction ds with
  | nil =>
    intro cons f
    simp [addDepsList, cnt]
  | cons d rest ih =>
    intro cons f
    rw [show addDepsList u (d :: rest) cons =
        addDepsList u rest (fun f => if f = d then cons f ++ [u] else cons f) from rfl]
    rw [ih]
    by_cases hf : f = d
    · rw [if_pos hf, List.append_assoc]
      congr 1
      rw [cnt_cons, if_pos hf.symm, Nat.add_comm 1 (cnt f rest),
        List.replicate_succ, List.singleton_append]
    · rw [if_neg hf]
      congr 2
      rw [cnt_cons, if_neg (fun hc => hf hc.symm), Nat.zero_add]

theorem insertOuts_ok : ∀ (os known : List FileUuid), (known ++ os).Nodup →
    insertOuts known os = .ok (known ++ os) := by
  intro os
  induction os with
  | nil =>
    intro known _
    simp [insertOuts]
  | cons o rest ih =>
    intro known h
    have hno : o ∉ known := by
      rcases List.nodup_append.mp h with ⟨_, _, hdisj⟩
      intro hc
      exact hdisj hc (List.mem_cons_self _ _)
    have h' : ((known ++ [o]) ++ rest).Nodup := by
      rw [List.append_assoc, List.singleton_append]
      exact h
    rw [show insertOuts known (o :: rest) =
        if o ∈ known then Except.error o else insertOuts (known ++ [o]) rest from rfl,
      if_neg hno, ih (known ++ [o]) h', List.append_assoc, List.singleton_append]

theorem insertOuts_err : ∀ (os known : List FileUuid), known.Nodup →
    ¬ (known ++ os).Nodup →
    ∃ g, insertOuts known os = .error g ∧ 2 ≤ cnt g (known ++ os) := by
  intro os
  induction os with
  | nil =>
    intro known hk hnot
    rw [List.append_nil] at hnot
    exact absurd hk hnot
  | cons o rest ih =>
    intro known hk hnot
    by_cases ho : o ∈ known
    · refine ⟨o, ?_, ?_⟩
      · rw [show insertOuts known (o :: rest) =
            if o ∈ known then Except.error o else insertOuts (known ++ [o]) rest from rfl,
          if_pos ho]
      · have h1 := cnt_pos.mpr ho
        have h2 : 0 < cnt o (o :: rest) := cnt_pos.mpr (List.mem_cons_self _ _)
        rw [cnt_append]
        omega
    · have hk' : (known ++ [o]).Nodup := by
        rw [List.nodup_append]
        refine ⟨hk, List.nodup_singleton o, ?_⟩
        intro a ha hb
        rw [List.mem_singleton] at hb
        exact ho (hb ▸ ha)
      have hnot' : ¬ ((known ++ [o]) ++ rest).Nodup := by
        rw [List.append_assoc, List.singleton_append]
        exact hnot
      obtain ⟨g, hg, hcnt⟩ := ih (known ++ [o]) hk' hnot'
      refine ⟨g, ?_, ?_⟩
      · rw [show insertOuts known (o :: rest) =
            if o ∈ known then Except.error o else insertOuts (known ++ [o]) rest from rfl,
          if_neg ho, hg]
      · rw [List.append_assoc, List.singleton_append] at hcnt
        exact hcnt

theorem buildExecs_ok : ∀ (rest : List (ExecutionUuid × Execution))
    (c0 : FileUuid → List ExecutionUuid) (nd0 : List (ExecutionUuid × Nat))
    (k0 : List FileUuid) (r0 : List ExecutionUuid),
    (∀ u ∈ keysOf rest, alookup nd0 u = none) →
    (keysOf rest).Nodup →
    (k0 ++ outsConcat rest).Nodup →
    buildExecs rest ⟨c0, nd0, k0, r0⟩ =
      .ok ⟨fun f => c0 f ++ consumersSpec rest f,
        nd0 ++ rest.map (fun p => (p.1, p.2.deps.length)),
        k0 ++ outsConcat rest, r0 ++ seedsOf rest⟩ := by
  intro rest
  induction rest with
  | nil =>
    intro c0 nd0 k0 r0 _ _ _
    have hc : (fun f => c0 f ++ consumersSpec [] f) = c0 := by
      funext f
      simp [consumersSpec]
    rw [show buildExecs [] ⟨c0, nd0, k0, r0⟩ =
      Except.ok ⟨c0, nd0, k0, r0⟩ from rfl, hc]
    simp [outsConcat, seedsOf]
  | cons p rest ih =>
    intro c0 nd0 k0 r0 hfresh hkeys houts
    obtain ⟨u, e⟩ := p
    rw [keysOf_cons, List.nodup_cons] at hkeys
    rw [show outsConcat ((u, e) :: rest) = e.outs ++ outsConcat rest from rfl,
      ← List.append_assoc] at houts
    have hins : insertOuts k0 e.outs = .ok (k0 ++ e.outs) :=
      insertOuts_ok e.outs k0 houts.of_append_left
    have hnd : alookup nd0 u = none :=
      hfresh u (by rw [keysOf_cons]; exact List.mem_cons_self _ _)
    have hcond : ¬ ((alookup nd0 u).isSome = true) := by
      rw [hnd]
      simp
    have hfresh' : ∀ v ∈ keysOf rest, alookup (nd0 ++ [(u, e.deps.length)]) v = none := by
      intro v hv
      have hne : ¬ u = v := fun hc => hkeys.1 (hc ▸ hv)
      rw [alookup_append_none _ (hfresh v (by rw [keysOf_cons]; exact List.mem_cons_of_mem _ hv))]
      simp [alookup, hne]
    have hrec := ih (addDepsList u e.deps c0) (nd0 ++ [(u, e.deps.length)])
      (k0 ++ e.outs)
      (if e.deps.length = 0 then r0 ++ [u] else r0) hfresh' hkeys.2 houts
    rw [show buildExecs ((u, e) :: rest) ⟨c0, nd0, k0, r0⟩ =
        (match insertOuts k0 e.outs with
        | .error f => .error (.DuplicateFileUUID f)
        | .ok known =>
          if (alookup nd0 u).isSome then .error (.DuplicateExecutionUUID u)
          else
            buildExecs rest
              ⟨addDepsList u e.deps c0, nd0 ++ [(u, e.deps.length)], known,
               if e.deps.length = 0 then r0 ++ [u] else r0⟩) from rfl,
      hins]
    show (if (alookup nd0 u).isSome = true then _ else _) = _
    rw [if_neg hcond, hrec]
    have hc : (fun f => addDepsList u e.deps c0 f ++ consumersSpec rest f) =
        (fun f => c0 f ++ consumersSpec ((u, e) :: rest) f) := by
      funext f
      rw [addDepsList_eq,
        show consumersSpec ((u, e) :: rest) f =
          List.replicate (cnt f e.deps) u ++ consumersSpec rest f from rfl,
        List.append_assoc]
    have hndeq : (nd0 ++ [(u, e.deps.length)]) ++
        rest.map (fun p => (p.1, p.2.deps.length)) =
        nd0 ++ ((u, e) :: rest).map (fun p => (p.1, p.2.deps.length)) := by
      rw [List.append_assoc, List.singleton_append, List.map_cons]
    have hkeq : (k0 ++ e.outs) ++ outsConcat rest =
        k0 ++ outsConcat ((u, e) :: rest) := by
      rw [List.append_assoc]
      rfl
    have hreq : (if e.deps.length = 0 then r0 ++ [u] else r0) ++ seedsOf rest =
        r0 ++ seedsOf ((u, e) :: rest) := by
      rw [show seedsOf ((u, e) :: rest) =
        (if e.deps.length = 0 then [u] else []) ++ seedsOf rest from rfl]
      by_cases hz : e.deps.length = 0
      · rw [if_pos hz, if_pos hz, List.append_assoc]
      · rw [if_neg hz, if_neg hz]
        simp
    rw [hc, hndeq, hkeq, hreq]

theorem buildExecs_err_dup : ∀ (rest : List (ExecutionUuid × Execution))
    (c0 : FileUuid → List ExecutionUuid) (nd0 : List (ExecutionUuid × Nat))
    (k0 : List FileUuid) (r0 : List ExecutionUuid),
    (∀ u ∈ keysOf rest, alookup nd0 u = none) →
    (keysOf rest).Nodup → k0.Nodup →
    ¬ (k0 ++ outsConcat rest).Nodup →
    ∃ g, buildExecs rest ⟨c0, nd0, k0, r0⟩ = .error (.DuplicateFileUUID g) ∧
      2 ≤ cnt g (k0 ++ outsConcat rest) := by
  intro rest
  induction rest with
  | nil =>
    intro c0 nd0 k0 r0 _ _ hk0 hnot
    rw [show outsConcat [] = [] from rfl, List.append_nil] at hnot
    exact absurd hk0 hnot
  | cons p rest ih =>
    intro c0 nd0 k0 r0 hfresh hkeys hk0 hnot
    obtain ⟨u, e⟩ := p
    rw [keysOf_cons, List.nodup_cons] at hkeys
    rw [show outsConcat ((u, e) :: rest) = e.outs ++ outsConcat rest from rfl,
      ← List.append_assoc] at hnot
    have hnd : alookup nd0 u = none :=
      hfresh u (by rw [keysOf_cons]; exact List.mem_cons_self _ _)
    have hcond : ¬ ((alookup nd0 u).isSome = true) := by
      rw [hnd]
      simp
    by_cases hno : (k0 ++ e.outs).Nodup
    · have hins : insertOuts k0 e.outs = .ok (k0 ++ e.outs) := by
        apply insertOuts_ok
        exact hno
      have hfresh' : ∀ v ∈ keysOf rest,
          alookup (nd0 ++ [(u, e.deps.length)]) v = none := by
        intro v hv
        have hne : ¬ u = v := fun hc => hkeys.1 (hc ▸ hv)
        rw [alookup_append_none _
          (hfresh v (by rw [keysOf_cons]; exact List.mem_cons_of_mem _ hv))]
        simp [alookup, hne]
      obtain ⟨g, hg, hcnt⟩ := ih (addDepsList u e.deps c0)
        (nd0 ++ [(u, e.deps.length)]) (k0 ++ e.outs)
        (if e.deps.length = 0 then r0 ++ [u] else r0) hfresh' hkeys.2 hno hnot
      refine ⟨g, ?_, ?_⟩
      · rw [show buildExecs ((u, e) :: rest) ⟨c0, nd0, k0, r0⟩ =
            (match insertOuts k0 e.outs with
            | .error f => .error (.DuplicateFileUUID f)
            | .ok known =>
              if (alookup nd0 u).isSome then .error (.DuplicateExecutionUUID u)
              else
                buildExecs rest
                  ⟨addDepsList u e.deps c0, nd0 ++ [(u, e.deps.length)], known,
                   if e.deps.length = 0 then r0 ++ [u] else r0⟩) from rfl,
          hins]
        show (if (alookup nd0 u).isSome = true then _ else _) = _
        rw [if_neg hcond, hg]
      · rw [List.append_assoc] at hcnt
        exact hcnt
    · obtain ⟨g, hg, hcnt⟩ := insertOuts_err e.outs k0 hk0 hno
      refine ⟨g, ?_, ?_⟩
      · rw [show buildExecs ((u, e) :: rest) ⟨c0, nd0, k0, r0⟩ =
            (match insertOuts k0 e.outs with
            | .error f => .error (.DuplicateFileUUID f)
            | .ok known =>
              if (alookup nd0 u).isSome then .error (.DuplicateExecutionUUID u)
              else
                buildExecs rest
                  ⟨addDepsList u e.deps c0, nd0 ++ [(u, e.deps.length)], known,
                   if e.deps.length = 0 then r0 ++ [u] else r0⟩) from rfl,
          hg]
      · have h3 : cnt g (k0 ++ outsConcat ((u, e) :: rest)) =
            cnt g k0 + cnt g e.outs + cnt g (outsConcat rest) := by
          rw [show outsConcat ((u, e) :: rest) = e.outs ++ outsConcat rest from rfl,
            cnt_append, cnt_append]
          omega
        rw [cnt_append] at hcnt
        omega

theorem addProvided_ok : ∀ (ps known rf : List FileUuid), (known ++ ps).Nodup →
    addProvided ps known rf = .ok (known ++ ps, rf ++ ps) := by
  intro ps
  induction ps with
  | nil =>
    intro known rf _
    simp [addProvided]
  | cons p rest ih =>
    intro known rf h
    have hno : p ∉ known := by
      rcases List.nodup_append.mp h with ⟨_, _, hdisj⟩
      intro hc
      exact hdisj hc (List.mem_cons_self _ _)
    have h' : ((known ++ [p]) ++ rest).Nodup := by
      rw [List.append_assoc, List.singleton_append]
      exact h
    rw [show addProvided (p :: rest) known rf =
        (if p ∈ known then .error (.DuplicateFileUUID p)
         else addProvided rest (known ++ [p]) (rf ++ [p])) from rfl,
      if_neg hno, ih (known ++ [p]) (rf ++ [p]) h', List.append_assoc,
      List.append_assoc, List.singleton_append]

theorem addProvided_err : ∀ (ps known rf : List FileUuid), known.Nodup →
    ¬ (known ++ ps).Nodup →
    ∃ g, addProvided ps known rf = .error (.DuplicateFileUUID g) ∧
      2 ≤ cnt g (known ++ ps) := by
  intro ps
  induction ps with
  | nil =>
    intro known rf hk hnot
    rw [List.append_nil] at hnot
    exact absurd hk hnot
  | cons p rest ih =>
    intro known rf hk hnot
    by_cases hp : p ∈ known
    · refine ⟨p, ?_, ?_⟩
      · rw [show addProvided (p :: rest) known rf =
            (if p ∈ known then .error (.DuplicateFileUUID p)
             else addProvided rest (known ++ [p]) (rf ++ [p])) from rfl,
          if_pos hp]
      · have h1 := cnt_pos.mpr hp
        have h2 : 0 < cnt p (p :: rest) := cnt_pos.mpr (List.mem_cons_self _ _)
        rw [cnt_append]
        omega
    · have hk' : (known ++ [p]).Nodup := by
        rw [List.nodup_append]
        refine ⟨hk, List.nodup_singleton p, ?_⟩
        intro a ha hb
        rw [List.mem_singleton] at hb
        exact hp (hb ▸ ha)
      have hnot' : ¬ ((known ++ [p]) ++ rest).Nodup := by
        rw [List.append_assoc, List.singleton_append]
        exact hnot
      obtain ⟨g, hg, hcnt⟩ := ih (known ++ [p]) (rf ++ [p]) hk' hnot'
      refine ⟨g, ?_, ?_⟩
      · rw [show addProvided (p :: rest) known rf =
            (if p ∈ known then .error (.DuplicateFileUUID p)
             else addProvided rest (known ++ [p]) (rf ++ [p])) from rfl,
          if_neg hp, hg]
      · rw [List.append_assoc, List.singleton_append] at hcnt
        exact hcnt

/-! ### The characterisation of `check_dag` -/

theorem seedsOf_sublist (L : List (ExecutionUuid × Execution)) :
    (seedsOf L).Sublist (keysOf L) := by
  induction L with
  | nil => exact List.Sublist.refl _
  | cons p t ih =>
    rw [show seedsOf (p :: t) =
      (if p.2.deps.length = 0 then [p.1] else []) ++ seedsOf t from rfl, keysOf_cons]
    by_cases hz : p.2.deps.length = 0
    · rw [if_pos hz, List.singleton_append]
      exact ih.cons₂ _
    · rw [if_neg hz, List.nil_append]
      exact ih.cons _

theorem mem_seedsOf {L : List (ExecutionUuid × Execution)} (hK : (keysOf L).Nodup)
    {p : ExecutionUuid × Execution} (hp : p ∈ L) :
    p.1 ∈ seedsOf L ↔ p.2.deps.length = 0 := by
  induction L with
  | nil => simp at hp
  | cons q t ih =>
    rw [keysOf_cons, List.nodup_cons] at hK
    rw [show seedsOf (q :: t) =
      (if q.2.deps.length = 0 then [q.1] else []) ++ seedsOf t from rfl]
    rcases List.mem_cons.mp hp with hp' | hp'
    · have h1 : p.1 ∉ keysOf t := by
        rw [hp']
        exact hK.1
      by_cases hz : q.2.deps.length = 0
      · rw [if_pos hz, List.singleton_append]
        constructor
        · intro _
          rw [hp']
          exact hz
        · intro _
          rw [hp']
          exact List.mem_cons_self _ _
      · rw [if_neg hz, List.nil_append]
        constructor
        · intro hmem
          exact absurd ((seedsOf_sublist t).subset hmem) h1
        · intro hlen
          exact absurd (by rw [← hp']; exact hlen) hz
    · have hne : ¬ p.1 = q.1 := fun he => hK.1 (he ▸ mem_keysOf hp')
      by_cases hz : q.2.deps.length = 0
      · rw [if_pos hz, List.singleton_append, List.mem_cons]
        constructor
        · intro h
          rcases h with h | h
          · exact absurd h hne
          · exact (ih hK.2 hp').mp h
        · intro h
          exact Or.inr ((ih hK.2 hp').mpr h)
      · rw [if_neg hz, List.nil_append]
        exact ih hK.2 hp'

theorem inv_final_DF {L : List (ExecutionUuid × Execution)} {P nd DF DE}
    (hK : (keysOf L).Nodup) (hinv : Inv L P nd [] [] DF DE) :
    ∀ f, f ∈ DF ↔ Avail L P f := by
  have hperm := hinv.filesPerm
  rw [List.append_nil] at hperm
  intro f
  constructor
  · intro hf
    exact hinv.availF f (by rw [List.append_nil]; exact hf)
  · intro hav
    induction hav with
    | prov hp =>
      exact hperm.mem_iff.mpr (List.mem_append_left _ hp)
    | out u e hue hdeps hout ih =>
      have hrem : remaining e.deps DF = 0 := remaining_eq_zero.mpr ih
      have hu : u ∈ DE := by
        have h1 := (hinv.zeroIff (u, e) hue).mp hrem
        rw [List.append_nil] at h1
        exact h1
      have hmem : _ ∈ outsOfList L DE := mem_outsOfList.mpr
        ⟨u, hu, by rw [outsOf_eq_of_mem hK hue]; exact hout⟩
      exact hperm.mem_iff.mpr (List.mem_append_right _ hmem)

theorem check_dag_char (L : List (ExecutionUuid × Execution)) (P : List FileUuid)
    (cbFiles : List FileUuid) (cbExecs : List ExecutionUuid)
    (hK : (keysOf L).Nodup) (hGlob : (P ++ outsConcat L).Nodup) :
    ∃ DF, (∀ f, f ∈ DF ↔ Avail L P f) ∧
      check_dag L P cbFiles cbExecs = afterTraversal L P cbFiles cbExecs DF := by
  have houts : (outsConcat L).Nodup := (List.nodup_append.mp hGlob).2.1
  have hbuild := buildExecs_ok L (fun _ => []) [] [] []
    (fun u _ => rfl) hK (by rw [List.nil_append]; exact houts)
  have hkp : (outsConcat L ++ P).Nodup := List.perm_append_comm.nodup_iff.mp hGlob
  have hprov := addProvided_ok P (outsConcat L) [] hkp
  have hconsfn : (fun f => ([] : List ExecutionUuid) ++ consumersSpec L f) =
      consumersSpec L := by
    funext f
    rw [List.nil_append]
  have hndinit : L.map (fun p => (p.1, p.2.deps.length)) =
      L.map (fun p => (p.1, remaining p.2.deps [])) := by
    apply List.map_congr_left
    intro p _
    rw [remaining_nil_right]
  have hinv0 : Inv L P (L.map (fun p => (p.1, remaining p.2.deps [])))
      (seedsOf L) P [] [] := by
    refine ⟨rfl, ?_, ?_, ?_, ?_, ?_⟩
    · rw [List.nil_append, show outsOfList L [] = [] from rfl, List.append_nil]
    · rw [List.nil_append]
      exact hK.sublist (seedsOf_sublist L)
    · intro u hu
      rw [List.nil_append] at hu
      exact (seedsOf_sublist L).subset hu
    · intro p hp
      rw [List.nil_append, remaining_nil_right]
      exact (mem_seedsOf hK hp).symm
    · intro x hx
      rw [List.nil_append] at hx
      exact Avail.prov hx
  have hfuel : (P ++ outsConcat L).length + L.length + 1 ≤
      fuelFor L P + List.length ([] : List FileUuid) +
        List.length ([] : List ExecutionUuid) := by
    simp [fuelFor]
  obtain ⟨DF, DE, hres, hinvf⟩ := visitLoop_master hK hGlob (fuelFor L P)
    (L.map (fun p => (p.1, remaining p.2.deps []))) (seedsOf L) P [] [] hinv0 hfuel
  refine ⟨DF, inv_final_DF hK hinvf, ?_⟩
  rw [show check_dag L P cbFiles cbExecs =
      (match buildExecs L ⟨fun _ => [], [], [], []⟩ with
      | .error e => .err e
      | .ok st =>
        match addProvided P st.known [] with
        | .error e => .err e
        | .ok (known, readyF) =>
          match visitLoop L st.cons (fuelFor L P) st.nd st.readyE readyF with
          | .panicked => .panicked
          | .fuelOut => .fuelOut
          | .done nd =>
            match firstStuck nd with
            | some u => classifyStuck L known u
            | none =>
              match cbFileCheck cbFiles known with
              | some e => .err e
              | none =>
                match cbExecCheck cbExecs nd with
                | some e => .err e
                | none => .ok) from rfl, hbuild]
  simp only [List.nil_append]
  rw [hprov]
  simp only [List.nil_append, hndinit]
  rw [show (fun f => consumersSpec L f) = consumersSpec L from rfl, hres]
  rfl

/-! ### The phases after the traversal -/

theorem avail_known {L : List (ExecutionUuid × Execution)} {P : List FileUuid}
    {f : FileUuid} (h : Avail L P f) : f ∈ P ∨ ∃ q ∈ L, f ∈ q.2.outs := by
  cases h with
  | prov hp => exact Or.inl hp
  | out u e hue _ hout => exact Or.inr ⟨(u, e), hue, hout⟩

theorem mem_knownFiles {L : List (ExecutionUuid × Execution)} {P : List FileUuid}
    {f : FileUuid} : f ∈ knownFiles L P ↔ f ∈ P ∨ ∃ q ∈ L, f ∈ q.2.outs := by
  rw [knownFiles, List.mem_append, mem_outsConcat]
  exact or_comm

theorem firstStuck_none : ∀ (nd : List (ExecutionUuid × Nat)),
    firstStuck nd = none ↔ ∀ p ∈ nd, p.2 = 0 := by
  intro nd
  induction nd with
  | nil => simp [firstStuck]
  | cons p t ih =>
    obtain ⟨u, c⟩ := p
    rw [show firstStuck ((u, c) :: t) =
      if c = 0 then firstStuck t else some u from rfl]
    by_cases hc : c = 0
    · rw [if_pos hc, ih]
      constructor
      · intro h q hq
        rcases List.mem_cons.mp hq with h' | h'
        · rw [h', hc]
        · exact h q h'
      · intro h q hq
        exact h q (List.mem_cons_of_mem _ hq)
    · rw [if_neg hc]
      constructor
      · intro h
        exact absurd h (by simp)
      · intro h
        exact absurd (h (u, c) (List.mem_cons_self _ _)) hc

theorem firstStuck_some : ∀ (nd : List (ExecutionUuid × Nat)) (u : ExecutionUuid),
    firstStuck nd = some u → ∃ c, (u, c) ∈ nd ∧ c ≠ 0 := by
  intro nd
  induction nd with
  | nil =>
    intro u h
    simp [firstStuck] at h
  | cons p t ih =>
    intro u h
    obtain ⟨k, c⟩ := p
    rw [show firstStuck ((k, c) :: t) =
      if c = 0 then firstStuck t else some k from rfl] at h
    by_cases hc : c = 0
    · rw [if_pos hc] at h
      obtain ⟨c', hm, hne⟩ := ih u h
      exact ⟨c', List.mem_cons_of_mem _ hm, hne⟩
    · rw [if_neg hc] at h
      injection h with h
      refine ⟨c, ?_, hc⟩
      rw [← h]
      exact List.mem_cons_self _ _

theorem firstUnknown_none : ∀ (ds known : List FileUuid),
    firstUnknown ds known = none ↔ ∀ d ∈ ds, d ∈ known := by
  intro ds known
  induction ds with
  | nil => simp [firstUnknown]
  | cons d t ih =>
    rw [show firstUnknown (d :: t) known =
      if d ∈ known then firstUnknown t known else some d from rfl]
    by_cases hd : d ∈ known
    · rw [if_pos hd, ih]
      constructor
      · intro h q hq
        rcases List.mem_cons.mp hq with h' | h'
        · rw [h']
          exact hd
        · exact h q h'
      · intro h q hq
        exact h q (List.mem_cons_of_mem _ hq)
    · rw [if_neg hd]
      constructor
      · intro h
        exact absurd h (by simp)
      · intro h
        exact absurd (h d (List.mem_cons_self _ _)) hd

theorem firstUnknown_some : ∀ (ds known : List FileUuid) (d : FileUuid),
    firstUnknown ds known = some d → d ∈ ds ∧ d ∉ known := by
  intro ds known
  induction ds with
  | nil =>
    intro d h
    simp [firstUnknown] at h
  | cons e t ih =>
    intro d h
    rw [show firstUnknown (e :: t) known =
      if e ∈ known then firstUnknown t known else some e from rfl] at h
    by_cases he : e ∈ known
    · rw [if_pos he] at h
      obtain ⟨hm, hn⟩ := ih d h
      exact ⟨List.mem_cons_of_mem _ hm, hn⟩
    · rw [if_neg he] at h
      injection h with h
      rw [← h]
      exact ⟨List.mem_cons_self _ _, he⟩

theorem cbFileCheck_none : ∀ (cbs known : List FileUuid),
    cbFileCheck cbs known = none ↔ ∀ f ∈ cbs, f ∈ known := by
  intro cbs known
  induction cbs with
  | nil => simp [cbFileCheck]
  | cons f t ih =>
    rw [show cbFileCheck (f :: t) known =
      (if f ∈ known then cbFileCheck t known
       else some (.MissingFile f "File required by a callback")) from rfl]
    by_cases hf : f ∈ known
    · rw [if_pos hf, ih]
      constructor
      · intro h q hq
        rcases List.mem_cons.mp hq with h' | h'
        · rw [h']
          exact hf
        · exact h q h'
      · intro h q hq
        exact h q (List.mem_cons_of_mem _ hq)
    · rw [if_neg hf]
      constructor
      · intro h
        exact absurd h (by simp)
      · intro h
        exact absurd (h f (List.mem_cons_self _ _)) hf

theorem cbFileCheck_some : ∀ (cbs known : List FileUuid) (e : DAGError),
    cbFileCheck cbs known = some e →
    ∃ f, e = .MissingFile f "File required by a callback" ∧ f ∈ cbs ∧ f ∉ known := by
  intro cbs known
  induction cbs with
  | nil =>
    intro e h
    simp [cbFileCheck] at h
  | cons f t ih =>
    intro e h
    rw [show cbFileCheck (f :: t) known =
      (if f ∈ known then cbFileCheck t known
       else some (.MissingFile f "File required by a callback")) from rfl] at h
    by_cases hf : f ∈ known
    · rw [if_pos hf] at h
      obtain ⟨g, he, hm, hn⟩ := ih e h
      exact ⟨g, he, List.mem_cons_of_mem _ hm, hn⟩
    · rw [if_neg hf] at h
      injection h with h
      exact ⟨f, h.symm, List.mem_cons_self _ _, hf⟩

theorem cbExecCheck_none : ∀ (cbs : List ExecutionUuid)
    (nd : List (ExecutionUuid × Nat)),
    cbExecCheck cbs nd = none ↔ ∀ u ∈ cbs, u ∈ keysOf nd := by
  intro cbs nd
  induction cbs with
  | nil => simp [cbExecCheck]
  | cons u t ih =>
    rw [show cbExecCheck (u :: t) nd =
      (if (alookup nd u).isSome then cbExecCheck t nd
       else some (.MissingExecution u)) from rfl]
    by_cases hu : (alookup nd u).isSome = true
    · rw [if_pos hu, ih]
      constructor
      · intro h q hq
        rcases List.mem_cons.mp hq with h' | h'
        · rw [h']
          exact alookup_isSome.mp hu
        · exact h q h'
      · intro h q hq
        exact h q (List.mem_cons_of_mem _ hq)
    · rw [if_neg hu]
      constructor
      · intro h
        exact absurd h (by simp)
      · intro h
        exact absurd (alookup_isSome.mpr (h u (List.mem_cons_self _ _))) hu

theorem cbExecCheck_some : ∀ (cbs : List ExecutionUuid)
    (nd : List (ExecutionUuid × Nat)) (e : DAGError),
    cbExecCheck cbs nd = some e →
    ∃ u, e = .MissingExecution u ∧ u ∈ cbs ∧ u ∉ keysOf nd := by
  intro cbs nd
  induction cbs with
  | nil =>
    intro e h
    simp [cbExecCheck] at h
  | cons u t ih =>
    intro e h
    rw [show cbExecCheck (u :: t) nd =
      (if (alookup nd u).isSome then cbExecCheck t nd
       else some (.MissingExecution u)) from rfl] at h
    by_cases hu : (alookup nd u).isSome = true
    · rw [if_pos hu] at h
      obtain ⟨v, he, hm, hn⟩ := ih e h
      exact ⟨v, he, List.mem_cons_of_mem _ hm, hn⟩
    · rw [if_neg hu] at h
      injection h with h
      refine ⟨u, h.symm, List.mem_cons_self _ _, ?_⟩
      intro hc
      exact hu (alookup_isSome.mpr hc)

/-! ### Cycles and availability -/

theorem cycle_shift {α : Type} {r : α → α → Prop} {a : α}
    (h : Relation.TransGen r a a) : ∃ b, r a b ∧ Relation.TransGen r b b := by
  obtain ⟨b, hab, hba⟩ := Relation.TransGen.head'_iff.mp h
  exact ⟨b, hab, Relation.TransGen.tail' hba hab⟩

theorem producer_unique : ∀ (L : List (ExecutionUuid × Execution)),
    (outsConcat L).Nodup →
    ∀ (p q : ExecutionUuid × Execution) (f : FileUuid), p ∈ L → q ∈ L →
    f ∈ p.2.outs → f ∈ q.2.outs → p = q := by
  intro L
  induction L with
  | nil =>
    intro _ p q f hp _ _ _
    simp at hp
  | cons x t ih =>
    intro houts p q f hp hq hfp hfq
    rw [show outsConcat (x :: t) = x.2.outs ++ outsConcat t from rfl,
      List.nodup_append] at houts
    rcases List.mem_cons.mp hp with hp' | hp' <;>
      rcases List.mem_cons.mp hq with hq' | hq'
    · rw [hp', hq']
    · exfalso
      exact houts.2.2 (hp' ▸ hfp) (mem_outsConcat.mpr ⟨q, hq', hfq⟩)
    · exfalso
      exact houts.2.2 (hq' ▸ hfq) (mem_outsConcat.mpr ⟨p, hp', hfp⟩)
    · exact ih houts.2.1 p q f hp' hq' hfp hfq

theorem avail_producer_not_cyclic {L : List (ExecutionUuid × Execution)}
    {P : List FileUuid} (hK : (keysOf L).Nodup) (houts : (outsConcat L).Nodup)
    (hdisj : ∀ f ∈ P, f ∉ outsConcat L) :
    ∀ {d : FileUuid}, Avail L P d →
    ∀ q, q ∈ L → d ∈ q.2.outs → ¬ Relation.TransGen (EdgeTo L) q.1 q.1 := by
  intro d hav
  induction hav with
  | prov hp =>
    intro q hq hdq _
    exact hdisj _ hp (mem_outsConcat.mpr ⟨q, hq, hdq⟩)
  | out u e hue hdeps hout ih =>
    intro q hq hdq hcyc
    have heq : (u, e) = q := producer_unique L houts (u, e) q _ hue hq hout hdq
    obtain ⟨b, hedge, hbcyc⟩ := cycle_shift hcyc
    obtain ⟨p', q', hp', hq', hp1, hq1, d', hd'dep, hd'out⟩ := hedge
    have hpq : p' = (u, e) := by
      apply keyInj hK hp' hue
      rw [hp1, ← heq]
    have hd'e : d' ∈ e.deps := by
      rw [hpq] at hd'dep
      exact hd'dep
    exact ih d' hd'e q' hq' hd'out (by rw [hq1]; exact hbcyc)

theorem cycle_gives_stuck {L : List (ExecutionUuid × Execution)} {P : List FileUuid}
    (hK : (keysOf L).Nodup) (hGlob : (P ++ outsConcat L).Nodup)
    (hcyc : HasCycle L) : ∃ p ∈ L, ∃ d ∈ p.2.deps, ¬ Avail L P d := by
  obtain ⟨u0, hu0⟩ := hcyc
  obtain ⟨b, hedge, hbcyc⟩ := cycle_shift hu0
  obtain ⟨p, q, hp, hq, hp1, hq1, d, hddep, hdout⟩ := hedge
  refine ⟨p, hp, d, hddep, ?_⟩
  intro hav
  have houts : (outsConcat L).Nodup := (List.nodup_append.mp hGlob).2.1
  have hdisj : ∀ f ∈ P, f ∉ outsConcat L := by
    intro f hf hc
    exact (List.nodup_append.mp hGlob).2.2 hf hc
  exact avail_producer_not_cyclic hK houts hdisj hav q hq hdout
    (by rw [hq1]; exact hbcyc)

theorem missing_gives_stuck {L : List (ExecutionUuid × Execution)}
    {P : List FileUuid} (hmiss : HasMissingDep L P) :
    ∃ p ∈ L, ∃ d ∈ p.2.deps, ¬ Avail L P d := by
  obtain ⟨p, hp, d, hd, hdP, hdout⟩ := hmiss
  refine ⟨p, hp, d, hd, ?_⟩
  intro hav
  rcases avail_known hav with h | ⟨q, hq, hqo⟩
  · exact hdP h
  · exact hdout q hq hqo

theorem valid_all_avail {L : List (ExecutionUuid × Execution)} {P : List FileUuid}
    (hdeps : ∀ p ∈ L, ∀ d ∈ p.2.deps, d ∈ P ∨ ∃ q ∈ L, d ∈ q.2.outs)
    (hacyc : ¬ HasCycle L) :
    ∀ p ∈ L, ∀ d ∈ p.2.deps, Avail L P d := by
  by_contra hbad
  push_neg at hbad
  obtain ⟨p0, hp0, d0, hd0, hnav0⟩ := hbad
  have hstep : ∀ p : ExecutionUuid × Execution,
      (p ∈ L ∧ ∃ d ∈ p.2.deps, ¬ Avail L P d) →
      ∃ q, (q ∈ L ∧ ∃ d ∈ q.2.deps, ¬ Avail L P d) ∧ EdgeTo L p.1 q.1 := by
    rintro p ⟨hpL, d, hd, hnav⟩
    rcases hdeps p hpL d hd with h | ⟨q, hq, hqo⟩
    · exact absurd (Avail.prov h) hnav
    · refine ⟨q, ⟨hq, ?_⟩, ⟨p, q, hpL, hq, rfl, rfl, d, hd, hqo⟩⟩
      by_contra hqall
      push_neg at hqall
      exact hnav (Avail.out q.1 q.2 (by simpa using hq) hqall hqo)
  let f : Nat → {p : ExecutionUuid × Execution //
      p ∈ L ∧ ∃ d ∈ p.2.deps, ¬ Avail L P d} := fun n =>
    Nat.rec ⟨p0, hp0, d0, hd0, hnav0⟩
      (fun _ prev => ⟨(hstep prev.1 prev.2).choose, (hstep prev.1 prev.2).choose_spec.1⟩) n
  have hedge : ∀ n, EdgeTo L (f n).1.1 (f (n + 1)).1.1 := fun n =>
    (hstep (f n).1 (f n).2).choose_spec.2
  have hchain : ∀ m n, m < n →
      Relation.TransGen (EdgeTo L) ((f m).1.1) ((f n).1.1) := by
    intro m n
    induction n with
    | zero =>
      intro h
      exact absurd h (Nat.not_lt_zero m)
    | succ n ihn =>
      intro hmn
      by_cases hm : m = n
      · rw [hm]
        exact Relation.TransGen.single (hedge n)
      · exact (ihn (by omega)).trans (Relation.TransGen.single (hedge n))
  have hcard : ∃ i j, i < j ∧ (f i).1.1 = (f j).1.1 := by
    have hmap : ∀ n ∈ Finset.range ((keysOf L).toFinset.card + 1),
        (f n).1.1 ∈ (keysOf L).toFinset := by
      intro n _
      rw [List.mem_toFinset]
      exact mem_keysOf (f n).2.1
    have hlt : (keysOf L).toFinset.card <
        (Finset.range ((keysOf L).toFinset.card + 1)).card := by
      rw [Finset.card_range]
      omega
    obtain ⟨i, hi, j, hj, hij, hfij⟩ :=
      Finset.exists_ne_map_eq_of_card_lt_of_maps_to hlt hmap
    rcases Nat.lt_or_ge i j with h | h
    · exact ⟨i, j, h, hfij⟩
    · have hji : j < i := by omega
      exact ⟨j, i, hji, hfij.symm⟩
  obtain ⟨i, j, hij, heq⟩ := hcard
  refine hacyc ⟨(f i).1.1, ?_⟩
  have h1 := hchain i j hij
  rw [← heq] at h1
  exact h1

theorem no_cycle_of_no_deps {L : List (ExecutionUuid × Execution)}
    (h : ∀ p ∈ L, p.2.deps = []) : ¬ HasCycle L := by
  rintro ⟨u, hu⟩
  obtain ⟨b, hedge, _⟩ := cycle_shift hu
  obtain ⟨p, q, hp, _, _, _, d, hd, _⟩ := hedge
  rw [h p hp] at hd
  simp at hd

theorem afterTraversal_ok {L : List (ExecutionUuid × Execution)}
    {P cbFiles : List FileUuid} {cbExecs : List ExecutionUuid} {DF : List FileUuid}
    (h1 : firstStuck (L.map (fun p => (p.1, remaining p.2.deps DF))) = none)
    (h2 : cbFileCheck cbFiles (knownFiles L P) = none)
    (h3 : cbExecCheck cbExecs (L.map (fun p => (p.1, remaining p.2.deps DF))) = none) :
    afterTraversal L P cbFiles cbExecs DF = .ok := by
  simp only [afterTraversal, h1, h2, h3]

theorem afterTraversal_stuck {L : List (ExecutionUuid × Execution)}
    {P cbFiles : List FileUuid} {cbExecs : List ExecutionUuid} {DF : List FileUuid}
    (hK : (keysOf L).Nodup) {u : ExecutionUuid}
    (h1 : firstStuck (L.map (fun p => (p.1, remaining p.2.deps DF))) = some u) :
    ∃ e, (u, e) ∈ L ∧ 0 < remaining e.deps DF ∧
      afterTraversal L P cbFiles cbExecs DF =
        (match firstUnknown e.deps (knownFiles L P) with
         | some d => .err (.MissingFile d (depDesc e.description))
         | none => .err (.CycleDetected e.description)) := by
  obtain ⟨c, hmem, hc⟩ := firstStuck_some _ u h1
  obtain ⟨p, hpL, hpe⟩ := List.mem_map.mp hmem
  have hu : p.1 = u := congrArg Prod.fst hpe
  have hcval : remaining p.2.deps DF = c := congrArg Prod.snd hpe
  have hue : (u, p.2) ∈ L := by
    rw [← hu]
    simpa using hpL
  refine ⟨p.2, hue, by omega, ?_⟩
  have hget : execsGet L u = some p.2 := mem_alookup hK hue
  simp only [afterTraversal, h1, classifyStuck, hget]

theorem firstStuck_formula_none {L : List (ExecutionUuid × Execution)}
    {DF : List FileUuid} :
    firstStuck (L.map (fun p => (p.1, remaining p.2.deps DF))) = none ↔
    ∀ p ∈ L, remaining p.2.deps DF = 0 := by
  rw [firstStuck_none]
  constructor
  · intro h p hp
    exact h _ (List.mem_map_of_mem _ hp)
  · intro h q hq
    obtain ⟨p, hp, hpe⟩ := List.mem_map.mp hq
    rw [← hpe]
    exact h p hp

/-! ### Claim C1 -/

/-- **C1** (amended).  For every DAG satisfying the structural invariants of
the data model, `check_dag` returns success.  For every well-formed DAG
without duplicate file producers whose execution graph contains a cycle or
which has a dependency that no one produces, `check_dag` returns
`CycleDetected` or `MissingFile` — which of the two depends on the hash-map
iteration order, and a DAG with a duplicate producer returns
`DuplicateFileUUID` even when it also contains a cycle (see the
counterexample). -/
theorem check_dag_validity_classification (L : List (ExecutionUuid × Execution))
    (P : List FileUuid) (cbFiles : List FileUuid) (cbExecs : List ExecutionUuid) :
    (ValidDAGData L P cbFiles cbExecs → check_dag L P cbFiles cbExecs = .ok) ∧
    ((keysOf L).Nodup → (P ++ outsConcat L).Nodup →
      (HasCycle L ∨ HasMissingDep L P) →
      (∃ d, check_dag L P cbFiles cbExecs = .err (.CycleDetected d)) ∨
      (∃ g d, check_dag L P cbFiles cbExecs = .err (.MissingFile g d))) := by
  constructor
  · rintro ⟨hK, hGlob, hdeps, hacyc, hcbf, hcbe⟩
    obtain ⟨DF, hDF, hchar⟩ := check_dag_char L P cbFiles cbExecs hK hGlob
    rw [hchar]
    apply afterTraversal_ok
    · rw [firstStuck_formula_none]
      intro p hp
      rw [remaining_eq_zero]
      intro d hd
      rw [hDF]
      exact valid_all_avail hdeps hacyc p hp d hd
    · rw [cbFileCheck_none]
      exact hcbf
    · rw [cbExecCheck_none]
      intro u hu
      rw [keysOf_map_formula]
      exact hcbe u hu
  · intro hK hGlob hbad
    obtain ⟨DF, hDF, hchar⟩ := check_dag_char L P cbFiles cbExecs hK hGlob
    have hstuck : ∃ p ∈ L, ∃ d ∈ p.2.deps, ¬ Avail L P d := by
      rcases hbad with h | h
      · exact cycle_gives_stuck hK hGlob h
      · exact missing_gives_stuck h
    obtain ⟨p, hp, d, hd, hnav⟩ := hstuck
    cases hfs : firstStuck (L.map (fun p => (p.1, remaining p.2.deps DF))) with
    | none =>
      exfalso
      rw [firstStuck_formula_none] at hfs
      have h0 := hfs p hp
      rw [remaining_eq_zero] at h0
      exact hnav ((hDF d).mp (h0 d hd))
    | some u =>
      obtain ⟨e, hue, _, haft⟩ := afterTraversal_stuck hK hfs
      rw [hchar, haft]
      cases hfu : firstUnknown e.deps (knownFiles L P) with
      | some g =>
        simp only [hfu]
        exact Or.inr ⟨g, _, rfl⟩
      | none =>
        simp only [hfu]
        exact Or.inl ⟨_, rfl⟩

/-- Witness for C1: a concrete valid DAG (one execution with no dependencies,
one provided file, both subscribed) is accepted, and a concrete self-loop DAG
is classified as `CycleDetected` or `MissingFile`. -/
theorem check_dag_validity_classification_witness :
    check_dag [(1, ⟨1, "v", [], [10]⟩)] [20] [10, 20] [1] = .ok ∧
    ((∃ d, check_dag [(1, ⟨1, "s", [10], [10]⟩)] [] [] [] =
        .err (.CycleDetected d)) ∨
     (∃ g d, check_dag [(1, ⟨1, "s", [10], [10]⟩)] [] [] [] =
        .err (.MissingFile g d))) := by
  constructor
  · exact (check_dag_validity_classification _ _ _ _).1
      ⟨by decide, by decide, by decide, no_cycle_of_no_deps (by decide),
        by decide, by decide⟩
  · exact (check_dag_validity_classification _ _ _ _).2 (by decide) (by decide)
      (Or.inl ⟨1, Relation.TransGen.single
        ⟨(1, ⟨1, "s", [10], [10]⟩), (1, ⟨1, "s", [10], [10]⟩),
          by decide, by decide, rfl, rfl, 10, by decide, by decide⟩⟩)

/-- **C1 counterexample**: `dagMixA` contains a two-execution cycle, yet
`check_dag` returns `MissingFile` (the representative stuck execution picked
by iteration order is the one with the absent dependency), so
"DAG with a cycle ⇒ `CycleDetected`" is false as stated. -/
theorem check_dag_cycle_without_cycle_error :
    HasCycle dagMixA ∧
    check_dag dagMixA [] [] [] = .err (.MissingFile 99 (depDesc "a")) ∧
    ∀ d, check_dag dagMixA [] [] [] ≠ .err (.CycleDetected d) := by
  refine ⟨?_, by decide, ?_⟩
  · refine ⟨2, Relation.TransGen.head (show EdgeTo dagMixA 2 3 from ?_)
      (Relation.TransGen.single (show EdgeTo dagMixA 3 2 from ?_))⟩
    · exact ⟨(2, execCycB), (3, execCycC), by decide, by decide, rfl, rfl,
        20, by decide, by decide⟩
    · exact ⟨(3, execCycC), (2, execCycB), by decide, by decide, rfl, rfl,
        21, by decide, by decide⟩
  · intro d h
    rw [(by decide : check_dag dagMixA [] [] [] =
      .err (.MissingFile 99 (depDesc "a")))] at h
    simp at h

/-! ### Totality of the phases -/

theorem buildExecs_total : ∀ (rest : List (ExecutionUuid × Execution))
    (c0 : FileUuid → List ExecutionUuid) (nd0 : List (ExecutionUuid × Nat))
    (k0 : List FileUuid) (r0 : List ExecutionUuid), k0.Nodup →
    (∃ e, buildExecs rest ⟨c0, nd0, k0, r0⟩ = .error e) ∨
    ((keysOf rest).Nodup ∧ (∀ u ∈ keysOf rest, alookup nd0 u = none) ∧
     (k0 ++ outsConcat rest).Nodup) := by
  intro rest
  induction rest with
  | nil =>
    intro c0 nd0 k0 r0 hk0
    right
    refine ⟨List.nodup_nil, ?_, ?_⟩
    · intro u hu
      simp [keysOf] at hu
    · rw [show outsConcat [] = [] from rfl, List.append_nil]
      exact hk0
  | cons p rest ih =>
    intro c0 nd0 k0 r0 hk0
    obtain ⟨u, e⟩ := p
    by_cases h1 : (k0 ++ e.outs).Nodup
    · have hins : insertOuts k0 e.outs = .ok (k0 ++ e.outs) := insertOuts_ok e.outs k0 h1
      by_cases h2 : (alookup nd0 u).isSome = true
      · left
        refine ⟨.DuplicateExecutionUUID u, ?_⟩
        rw [show buildExecs ((u, e) :: rest) ⟨c0, nd0, k0, r0⟩ =
            (match insertOuts k0 e.outs with
            | .error f => .error (.DuplicateFileUUID f)
            | .ok known =>
              if (alookup nd0 u).isSome then .error (.DuplicateExecutionUUID u)
              else
                buildExecs rest
                  ⟨addDepsList u e.deps c0, nd0 ++ [(u, e.deps.length)], known,
                   if e.deps.length = 0 then r0 ++ [u] else r0⟩) from rfl,
          hins]
        show (if (alookup nd0 u).isSome = true then _ else _) = _
        rw [if_pos h2]
      · have hstep : buildExecs ((u, e) :: rest) ⟨c0, nd0, k0, r0⟩ =
            buildExecs rest ⟨addDepsList u e.deps c0, nd0 ++ [(u, e.deps.length)],
              k0 ++ e.outs, if e.deps.length = 0 then r0 ++ [u] else r0⟩ := by
          rw [show buildExecs ((u, e) :: rest) ⟨c0, nd0, k0, r0⟩ =
              (match insertOuts k0 e.outs with
              | .error f => .error (.DuplicateFileUUID f)
              | .ok known =>
                if (alookup nd0 u).isSome then .error (.DuplicateExecutionUUID u)
                else
                  buildExecs rest
                    ⟨addDepsList u e.deps c0, nd0 ++ [(u, e.deps.length)], known,
                     if e.deps.length = 0 then r0 ++ [u] else r0⟩) from rfl,
            hins]
          show (if (alookup nd0 u).isSome = true then _ else _) = _
          rw [if_neg h2]
        rcases ih (addDepsList u e.deps c0) (nd0 ++ [(u, e.deps.length)])
          (k0 ++ e.outs) (if e.deps.length = 0 then r0 ++ [u] else r0) h1 with
          ⟨e', he'⟩ | ⟨hkr, hfr, hor⟩
        · left
          exact ⟨e', by rw [hstep, he']⟩
        · right
          have hu0 : alookup nd0 u = none := by
            cases hl : alookup nd0 u with
            | none => rfl
            | some v =>
              rw [hl] at h2
              simp at h2
          have hunotr : u ∉ keysOf rest := by
            intro hc
            have := hfr u hc
            rw [alookup_append_none _ hu0] at this
            simp [alookup] at this
          refine ⟨?_, ?_, ?_⟩
          · rw [keysOf_cons]
            exact List.nodup_cons.mpr ⟨hunotr, hkr⟩
          · intro v hv
            rw [keysOf_cons] at hv
            rcases List.mem_cons.mp hv with hv' | hv'
            · rw [hv']
              exact hu0
            · have := hfr v hv'
              rw [alookup_eq_none, keysOf_append] at this
              rw [alookup_eq_none]
              intro hc
              exact this (List.mem_append_left _ hc)
          · rw [show outsConcat ((u, e) :: rest) = e.outs ++ outsConcat rest from rfl,
              ← List.append_assoc]
            exact hor
    · left
      obtain ⟨g, hg, _⟩ := insertOuts_err e.outs k0 hk0 h1
      refine ⟨.DuplicateFileUUID g, ?_⟩
      rw [show buildExecs ((u, e) :: rest) ⟨c0, nd0, k0, r0⟩ =
          (match insertOuts k0 e.outs with
          | .error f => .error (.DuplicateFileUUID f)
          | .ok known =>
            if (alookup nd0 u).isSome then .error (.DuplicateExecutionUUID u)
            else
              buildExecs rest
                ⟨addDepsList u e.deps c0, nd0 ++ [(u, e.deps.length)], known,
                 if e.deps.length = 0 then r0 ++ [u] else r0⟩) from rfl,
        hg]

theorem addProvided_total (ps known rf : List FileUuid) (hn : known.Nodup) :
    (∃ e, addProvided ps known rf = .error e) ∨ (known ++ ps).Nodup := by
  by_cases h : (known ++ ps).Nodup
  · right
    exact h
  · left
    obtain ⟨g, hg, _⟩ := addProvided_err ps known rf hn h
    exact ⟨_, hg⟩

theorem check_dag_build_err {L : List (ExecutionUuid × Execution)}
    {P cbFiles : List FileUuid} {cbExecs : List ExecutionUuid} {e : DAGError}
    (h : buildExecs L ⟨fun _ => [], [], [], []⟩ = .error e) :
    check_dag L P cbFiles cbExecs = .err e := by
  simp only [check_dag, h]

theorem check_dag_provide_err {L : List (ExecutionUuid × Execution)}
    {P cbFiles : List FileUuid} {cbExecs : List ExecutionUuid} {e : DAGError}
    (hK : (keysOf L).Nodup) (houts : (outsConcat L).Nodup)
    (h : addProvided P (outsConcat L) [] = .error e) :
    check_dag L P cbFiles cbExecs = .err e := by
  have hbuild := buildExecs_ok L (fun _ => []) [] [] [] (fun u _ => rfl) hK
    (by rw [List.nil_append]; exact houts)
  simp only [check_dag, hbuild]
  simp only [List.nil_append]
  rw [h]

theorem afterTraversal_no_panic {L : List (ExecutionUuid × Execution)}
    {P cbFiles : List FileUuid} {cbExecs : List ExecutionUuid} {DF : List FileUuid}
    (hK : (keysOf L).Nodup) :
    afterTraversal L P cbFiles cbExecs DF = .ok ∨
    ∃ e, afterTraversal L P cbFiles cbExecs DF = .err e := by
  cases hfs : firstStuck (L.map (fun p => (p.1, remaining p.2.deps DF))) with
  | some u =>
    obtain ⟨e, _, _, haft⟩ := afterTraversal_stuck hK hfs
    rw [haft]
    cases hfu : firstUnknown e.deps (knownFiles L P) with
    | some d =>
      simp only [hfu]
      exact Or.inr ⟨_, rfl⟩
    | none =>
      simp only [hfu]
      exact Or.inr ⟨_, rfl⟩
  | none =>
    cases hcf : cbFileCheck cbFiles (knownFiles L P) with
    | some e =>
      right
      exact ⟨e, by simp only [afterTraversal, hfs, hcf]⟩
    | none =>
      cases hce : cbExecCheck cbExecs
          (L.map (fun p => (p.1, remaining p.2.deps DF))) with
      | some e =>
        right
        exact ⟨e, by simp only [afterTraversal, hfs, hcf, hce]⟩
      | none =>
        left
        exact afterTraversal_ok hfs hcf hce

/-- `check_dag` always returns `Ok` or a `DAGError` — shared helper behind
claim C9. -/
theorem check_dag_total (L : List (ExecutionUuid × Execution))
    (P cbFiles : List FileUuid) (cbExecs : List ExecutionUuid) :
    check_dag L P cbFiles cbExecs = .ok ∨
    ∃ e, check_dag L P cbFiles cbExecs = .err e := by
  rcases buildExecs_total L (fun _ => []) [] [] [] List.nodup_nil with
    ⟨e, he⟩ | ⟨hK, _, houts⟩
  · exact Or.inr ⟨e, check_dag_build_err he⟩
  · rw [List.nil_append] at houts
    rcases addProvided_total P (outsConcat L) [] houts with ⟨e, he⟩ | hkp
    · exact Or.inr ⟨e, check_dag_provide_err hK houts he⟩
    · have hGlob : (P ++ outsConcat L).Nodup :=
        List.perm_append_comm.nodup_iff.mp hkp
      obtain ⟨DF, _, hchar⟩ := check_dag_char L P cbFiles cbExecs hK hGlob
      rw [hchar]
      exact afterTraversal_no_panic hK

/-! ### Claim C2 -/

/-- **C2**.  When the Kahn-style traversal terminates with at least one
execution whose pending-dependency count is still positive (equivalently:
some execution has a dependency that never becomes available), the error is
classified on a representative stuck execution `p`: `MissingFile` naming a
dependency of `p` outside the known-files set when such a dependency exists,
otherwise `CycleDetected`; either error carries `p`'s description. -/
theorem check_dag_stuck_classification (L : List (ExecutionUuid × Execution))
    (P cbFiles : List FileUuid) (cbExecs : List ExecutionUuid)
    (hK : (keysOf L).Nodup) (hGlob : (P ++ outsConcat L).Nodup)
    (hstuck : ∃ p ∈ L, ∃ d ∈ p.2.deps, ¬ Avail L P d) :
    ∃ p, p ∈ L ∧ (∃ d ∈ p.2.deps, ¬ Avail L P d) ∧
      ((∃ d ∈ p.2.deps, d ∉ knownFiles L P) →
        ∃ d ∈ p.2.deps, d ∉ knownFiles L P ∧
          check_dag L P cbFiles cbExecs =
            .err (.MissingFile d (depDesc p.2.description))) ∧
      ((∀ d ∈ p.2.deps, d ∈ knownFiles L P) →
        check_dag L P cbFiles cbExecs =
          .err (.CycleDetected p.2.description)) := by
  obtain ⟨DF, hDF, hchar⟩ := check_dag_char L P cbFiles cbExecs hK hGlob
  obtain ⟨q, hq, d, hd, hnav⟩ := hstuck
  cases hfs : firstStuck (L.map (fun p => (p.1, remaining p.2.deps DF))) with
  | none =>
    exfalso
    rw [firstStuck_formula_none] at hfs
    have h0 := hfs q hq
    rw [remaining_eq_zero] at h0
    exact hnav ((hDF d).mp (h0 d hd))
  | some u =>
    obtain ⟨e, hue, hpos, haft⟩ := afterTraversal_stuck hK hfs
    refine ⟨(u, e), hue, ?_, ?_, ?_⟩
    · rw [remaining_pos] at hpos
      obtain ⟨d', hd', hnotDF⟩ := hpos
      exact ⟨d', hd', fun hav => hnotDF ((hDF d').mpr hav)⟩
    · intro hex
      cases hfu : firstUnknown e.deps (knownFiles L P) with
      | none =>
        exfalso
        rw [firstUnknown_none] at hfu
        obtain ⟨d', hd', hnk⟩ := hex
        exact hnk (hfu d' hd')
      | some g =>
        obtain ⟨hgmem, hgnk⟩ := firstUnknown_some _ _ _ hfu
        refine ⟨g, hgmem, hgnk, ?_⟩
        rw [hchar, haft]
        simp only [hfu]
    · intro hall
      have hfu : firstUnknown e.deps (knownFiles L P) = none := by
        rw [firstUnknown_none]
        exact hall
      rw [hchar, haft]
      simp only [hfu]

/-- Witness for C2: one execution depending on the absent file 99 is stuck;
`check_dag` reports `MissingFile` carrying its description. -/
theorem check_dag_stuck_classification_witness :
    ∃ p, p ∈ [((1 : ExecutionUuid), (⟨1, "w", [99], []⟩ : Execution))] ∧
      (∃ d ∈ p.2.deps, ¬ Avail [(1, ⟨1, "w", [99], []⟩)] [] d) ∧
      ((∃ d ∈ p.2.deps, d ∉ knownFiles [(1, ⟨1, "w", [99], []⟩)] []) →
        ∃ d ∈ p.2.deps, d ∉ knownFiles [(1, ⟨1, "w", [99], []⟩)] [] ∧
          check_dag [(1, ⟨1, "w", [99], []⟩)] [] [] [] =
            .err (.MissingFile d (depDesc p.2.description))) ∧
      ((∀ d ∈ p.2.deps, d ∈ knownFiles [(1, ⟨1, "w", [99], []⟩)] []) →
        check_dag [(1, ⟨1, "w", [99], []⟩)] [] [] [] =
          .err (.CycleDetected p.2.description)) := by
  apply check_dag_stuck_classification
  · decide
  · decide
  · refine ⟨(1, ⟨1, "w", [99], []⟩), by decide, 99, by decide, ?_⟩
    intro hav
    rcases avail_known hav with h | ⟨q, hq, hqo⟩
    · simp at h
    · rw [List.mem_singleton] at hq
      rw [hq] at hqo
      simp at hqo

/-! ### Claim C9 -/

/-- **C9**.  For every input to `check_dag`, valid or invalid, no internal
panic ever fires: the pending-dependency counter is never decremented at
zero (the `assert_ne!`), no `expect`/`unwrap` fails, and the fuel bound of
the embedded loop is never reached — the function always returns `Ok` or a
`DAGError`. -/
theorem check_dag_never_asserts (L : List (ExecutionUuid × Execution))
    (P cbFiles : List FileUuid) (cbExecs : List ExecutionUuid) :
    check_dag L P cbFiles cbExecs ≠ .panicked ∧
    check_dag L P cbFiles cbExecs ≠ .fuelOut := by
  rcases check_dag_total L P cbFiles cbExecs with h | ⟨e, h⟩
  · rw [h]
    exact ⟨by simp, by simp⟩
  · rw [h]
    exact ⟨by simp, by simp⟩

/-! ### Duplicate producers (claim C3) -/

theorem cnt_le_one_of_nodup {α : Type} [DecidableEq α] :
    ∀ {l : List α}, l.Nodup → ∀ a, cnt a l ≤ 1 := by
  intro l
  induction l with
  | nil =>
    intro _ a
    simp [cnt]
  | cons b t ih =>
    intro h a
    rw [List.nodup_cons] at h
    rw [cnt_cons]
    by_cases hb : b = a
    · rw [if_pos hb]
      have h1 : a ∉ t := hb ▸ h.1
      have h2 := cnt_eq_zero.mpr h1
      omega
    · rw [if_neg hb]
      have := ih h.2 a
      omega

theorem cnt_outsConcat_two : ∀ (L : List (ExecutionUuid × Execution))
    (p q : ExecutionUuid × Execution) (f : FileUuid), p ∈ L → q ∈ L → p ≠ q →
    f ∈ p.2.outs → f ∈ q.2.outs → 2 ≤ cnt f (outsConcat L) := by
  intro L
  induction L with
  | nil =>
    intro p _ _ hp
    simp at hp
  | cons x t ih =>
    intro p q f hp hq hne hfp hfq
    rw [show outsConcat (x :: t) = x.2.outs ++ outsConcat t from rfl, cnt_append]
    rcases List.mem_cons.mp hp with hp' | hp' <;>
      rcases List.mem_cons.mp hq with hq' | hq'
    · exact absurd (hp'.trans hq'.symm) hne
    · have h1 : 0 < cnt f x.2.outs := cnt_pos.mpr (hp' ▸ hfp)
      have h2 : 0 < cnt f (outsConcat t) :=
        cnt_pos.mpr (mem_outsConcat.mpr ⟨q, hq', hfq⟩)
      omega
    · have h1 : 0 < cnt f x.2.outs := cnt_pos.mpr (hq' ▸ hfq)
      have h2 : 0 < cnt f (outsConcat t) :=
        cnt_pos.mpr (mem_outsConcat.mpr ⟨p, hp', hfp⟩)
      omega
    · have := ih p q f hp' hq' hne hfp hfq
      omega

theorem cnt_of_multiProducer {L : List (ExecutionUuid × Execution)}
    {P : List FileUuid} {f : FileUuid} (h : MultiProducer L P f) :
    2 ≤ cnt f (outsConcat L ++ P) := by
  rw [cnt_append]
  rcases h with ⟨p, hp, q, hq, hne, hfp, hfq⟩ | ⟨hfP, p, hp, hfp⟩
  · have h2 : 2 ≤ cnt f (outsConcat L) :=
      cnt_outsConcat_two L p q f hp hq (fun hc => hne (congrArg Prod.fst hc)) hfp hfq
    omega
  · have h1 : 0 < cnt f (outsConcat L) :=
      cnt_pos.mpr (mem_outsConcat.mpr ⟨p, hp, hfp⟩)
    have h2 : 0 < cnt f P := cnt_pos.mpr hfP
    omega

theorem two_producers_of_cnt : ∀ (L : List (ExecutionUuid × Execution)),
    (keysOf L).Nodup → (∀ p ∈ L, p.2.outs.Nodup) → ∀ f,
    2 ≤ cnt f (outsConcat L) →
    ∃ p ∈ L, ∃ q ∈ L, p.1 ≠ q.1 ∧ f ∈ p.2.outs ∧ f ∈ q.2.outs := by
  intro L
  induction L with
  | nil =>
    intro _ _ f h
    simp [outsConcat, cnt] at h
  | cons x t ih =>
    intro hK hPE f h
    rw [keysOf_cons, List.nodup_cons] at hK
    rw [show outsConcat (x :: t) = x.2.outs ++ outsConcat t from rfl, cnt_append] at h
    have hx1 : cnt f x.2.outs ≤ 1 :=
      cnt_le_one_of_nodup (hPE x (List.mem_cons_self _ _)) f
    by_cases ht2 : 2 ≤ cnt f (outsConcat t)
    · obtain ⟨p, hp, q, hq, hne, hfp, hfq⟩ :=
        ih hK.2 (fun p hp => hPE p (List.mem_cons_of_mem _ hp)) f ht2
      exact ⟨p, List.mem_cons_of_mem _ hp, q, List.mem_cons_of_mem _ hq, hne,
        hfp, hfq⟩
    · have hx : 0 < cnt f x.2.outs := by omega
      have ht : 0 < cnt f (outsConcat t) := by omega
      obtain ⟨q, hq, hfq⟩ := mem_outsConcat.mp (cnt_pos.mp ht)
      refine ⟨x, List.mem_cons_self _ _, q, List.mem_cons_of_mem _ hq, ?_,
        cnt_pos.mp hx, hfq⟩
      intro hc
      exact hK.1 (hc ▸ mem_keysOf hq)

theorem multiProducer_of_cnt {L : List (ExecutionUuid × Execution)}
    {P : List FileUuid} {f : FileUuid} (hK : (keysOf L).Nodup)
    (hPE : ∀ p ∈ L, p.2.outs.Nodup) (hP : P.Nodup)
    (h : 2 ≤ cnt f (outsConcat L ++ P)) : MultiProducer L P f := by
  rw [cnt_append] at h
  have hPle : cnt f P ≤ 1 := cnt_le_one_of_nodup hP f
  by_cases hout2 : 2 ≤ cnt f (outsConcat L)
  · exact Or.inl (two_producers_of_cnt L hK hPE f hout2)
  · have h1 : 0 < cnt f (outsConcat L) := by omega
    have h2 : 0 < cnt f P := by omega
    exact Or.inr ⟨cnt_pos.mp h2, mem_outsConcat.mp (cnt_pos.mp h1)⟩

theorem afterTraversal_shape {L : List (ExecutionUuid × Execution)}
    {P cbFiles : List FileUuid} {cbExecs : List ExecutionUuid} {DF : List FileUuid}
    (hK : (keysOf L).Nodup) :
    afterTraversal L P cbFiles cbExecs DF = .ok ∨
    (∃ g d, afterTraversal L P cbFiles cbExecs DF = .err (.MissingFile g d)) ∨
    (∃ d, afterTraversal L P cbFiles cbExecs DF = .err (.CycleDetected d)) ∨
    (∃ u, afterTraversal L P cbFiles cbExecs DF = .err (.MissingExecution u)) := by
  cases hfs : firstStuck (L.map (fun p => (p.1, remaining p.2.deps DF))) with
  | some u =>
    obtain ⟨e, _, _, haft⟩ := afterTraversal_stuck hK hfs
    rw [haft]
    cases hfu : firstUnknown e.deps (knownFiles L P) with
    | some d =>
      simp only [hfu]
      exact Or.inr (Or.inl ⟨d, _, rfl⟩)
    | none =>
      simp only [hfu]
      exact Or.inr (Or.inr (Or.inl ⟨_, rfl⟩))
  | none =>
    cases hcf : cbFileCheck cbFiles (knownFiles L P) with
    | some e =>
      obtain ⟨g, he, _, _⟩ := cbFileCheck_some _ _ _ hcf
      refine Or.inr (Or.inl ⟨g, "File required by a callback", ?_⟩)
      rw [← he]
      simp only [afterTraversal, hfs, hcf]
    | none =>
      cases hce : cbExecCheck cbExecs
          (L.map (fun p => (p.1, remaining p.2.deps DF))) with
      | some e =>
        obtain ⟨v, he, _, _⟩ := cbExecCheck_some _ _ _ hce
        refine Or.inr (Or.inr (Or.inr ⟨v, ?_⟩))
        rw [← he]
        simp only [afterTraversal, hfs, hcf, hce]
      | none =>
        exact Or.inl (afterTraversal_ok hfs hcf hce)

/-! ### Claim C3 -/

/-- **C3**.  With well-formed maps (distinct execution keys, outputs that are
sets, distinct provided files): whenever some `FileUuid` has more than one
producer — it appears in the outputs of two executions with distinct uuids,
or it is both provided and some execution's output — `check_dag` returns
`DuplicateFileUUID` naming a multi-produced `FileUuid`; and when every
`FileUuid` has at most one producer, `check_dag` never returns
`DuplicateFileUUID`. -/
theorem check_dag_duplicate_file (L : List (ExecutionUuid × Execution))
    (P cbFiles : List FileUuid) (cbExecs : List ExecutionUuid)
    (hK : (keysOf L).Nodup) (hPE : ∀ p ∈ L, p.2.outs.Nodup) (hP : P.Nodup) :
    ((∃ f, MultiProducer L P f) →
      ∃ g, check_dag L P cbFiles cbExecs = .err (.DuplicateFileUUID g) ∧
        MultiProducer L P g) ∧
    ((¬ ∃ f, MultiProducer L P f) →
      ∀ g, check_dag L P cbFiles cbExecs ≠ .err (.DuplicateFileUUID g)) := by
  constructor
  · rintro ⟨f, hf⟩
    have hnot : ¬ (outsConcat L ++ P).Nodup :=
      not_nodup_of_two_le_cnt (cnt_of_multiProducer hf)
    by_cases houts : (outsConcat L).Nodup
    · obtain ⟨g, hg, hgc⟩ := addProvided_err P (outsConcat L) [] houts hnot
      exact ⟨g, check_dag_provide_err hK houts hg,
        multiProducer_of_cnt hK hPE hP hgc⟩
    · have hnot2 : ¬ ([] ++ outsConcat L).Nodup := by
        rw [List.nil_append]
        exact houts
      obtain ⟨g, hg, hgc⟩ := buildExecs_err_dup L (fun _ => []) [] [] []
        (fun u _ => rfl) hK List.nodup_nil hnot2
      refine ⟨g, check_dag_build_err hg, ?_⟩
      apply multiProducer_of_cnt hK hPE hP
      rw [List.nil_append] at hgc
      rw [cnt_append]
      omega
  · intro hno g hg
    have hglobRev : (outsConcat L ++ P).Nodup := by
      by_contra hc
      obtain ⟨a, ha⟩ := two_le_cnt_of_not_nodup hc
      exact hno ⟨a, multiProducer_of_cnt hK hPE hP ha⟩
    have hGlob : (P ++ outsConcat L).Nodup :=
      List.perm_append_comm.nodup_iff.mp hglobRev
    obtain ⟨DF, _, hchar⟩ := check_dag_char L P cbFiles cbExecs hK hGlob
    rw [hchar] at hg
    rcases afterTraversal_shape hK with h | ⟨a, b, h⟩ | ⟨a, h⟩ | ⟨a, h⟩ <;>
      rw [h] at hg <;> simp at hg

/-- Witness for C3: two executions both declaring file 7 as output are
rejected with `DuplicateFileUUID`, and a DAG whose files all have one
producer never produces that error. -/
theorem check_dag_duplicate_file_witness :
    (∃ g, check_dag [(1, ⟨1, "x", [], [7]⟩), (2, ⟨2, "y", [], [7]⟩)] [] [] [] =
        .err (.DuplicateFileUUID g) ∧
      MultiProducer [(1, ⟨1, "x", [], [7]⟩), (2, ⟨2, "y", [], [7]⟩)] [] g) ∧
    (∀ g, check_dag [(1, ⟨1, "x", [], [7]⟩)] [8] [] [] ≠
        .err (.DuplicateFileUUID g)) := by
  constructor
  · exact (check_dag_duplicate_file _ _ _ _ (by decide) (by decide) (by decide)).1
      ⟨7, Or.inl ⟨(1, ⟨1, "x", [], [7]⟩), by decide, (2, ⟨2, "y", [], [7]⟩),
        by decide, by decide, by decide, by decide⟩⟩
  · apply (check_dag_duplicate_file _ _ _ _ (by decide) (by decide) (by decide)).2
    rintro ⟨f, hf⟩
    rcases hf with ⟨p, hp, q, hq, hne, hfp, hfq⟩ | ⟨hfP, p, hp, hfp⟩
    · rw [List.mem_singleton] at hp hq
      rw [hp, hq] at hne
      exact hne rfl
    · rw [List.mem_singleton] at hp
      rw [hp] at hfp
      rw [List.mem_singleton] at hfP
      rw [hfP] at hfp
      simp at hfp

/-! ### Claim C4 -/

/-- **C4** (code bug).  `add_execution` stores executions with
`HashMap::insert`, which silently replaces an execution already present
under the same uuid.  Adding two executions that share uuid 0 therefore
leaves a one-entry map holding only the second execution, and `check_dag`
on the resulting DAG succeeds: the promised `DuplicateExecutionUUID` error
is never produced, because the duplicate-uuid check inside `check_dag`
iterates a map whose keys are unique by construction. -/
theorem add_execution_swallows_duplicate :
    add_execution (add_execution [] ⟨0, "first", [], [10]⟩)
        ⟨0, "second", [], [11]⟩ = [(0, ⟨0, "second", [], [11]⟩)] ∧
    check_dag (add_execution (add_execution [] ⟨0, "first", [], [10]⟩)
        ⟨0, "second", [], [11]⟩) [] [] [] = .ok ∧
    ∀ u, check_dag (add_execution (add_execution [] ⟨0, "first", [], [10]⟩)
        ⟨0, "second", [], [11]⟩) [] [] [] ≠
      .err (.DuplicateExecutionUUID u) := by
  refine ⟨by decide, by decide, ?_⟩
  intro u h
  rw [show check_dag (add_execution (add_execution [] ⟨0, "first", [], [10]⟩)
      ⟨0, "second", [], [11]⟩) [] [] [] = .ok from by decide] at h
  exact CheckResult.noConfusion h

/-! ### Claim C5 -/

/-- **C5** (code bug).  When the server delivers a file that has a
`get_content` callback, the client invokes the callback with the literal
placeholder `[1, 2, 3, 42]` (`client.rs` line 58), not with the first
`limit` bytes of the file's content: for a file of content `[5, 6, 7, 8, 9]`
and registered limit 3 the delivered argument differs from the
spec-required prefix `[5, 6, 7]`. -/
theorem get_content_placeholder_bug :
    provideFileContentArg [(7, ⟨none, some 3⟩)] 7 = some [1, 2, 3, 42] ∧
    specContentArg [5, 6, 7, 8, 9] 3 = [5, 6, 7] ∧
    provideFileContentArg [(7, ⟨none, some 3⟩)] 7 ≠
      some (specContentArg [5, 6, 7, 8, 9] 3) := by
  refine ⟨rfl, rfl, ?_⟩
  decide

/-! ### Claim C6 -/

/-- **C6** (code bug).  If the receive channel closes (root cause
"receiving on a closed channel") before the server has sent `Done`, the
receive loop of `ExecutorClient::evaluate` breaks out of the loop and the
function falls through to `Ok(())`: the client reports success, not a
network error.  The event script below contains no `Done` message, yet the
loop finishes with the success result. -/
theorem evaluate_disconnect_success_bug :
    RecvEvent.msg .Done ∉
      [RecvEvent.msg (.NotifyStart 1 2),
       RecvEvent.recvErr "receiving on a closed channel"] ∧
    evaluateRecvLoop
      [RecvEvent.msg (.NotifyStart 1 2),
       RecvEvent.recvErr "receiving on a closed channel"] = .finishedOk := by
  exact ⟨by decide, rfl⟩

/-! ### Claim C7 -/

theorem connectAttempts_cons_ok (attempt : Nat → Except ConnectError Nat)
    (a : Nat) (rest : List Nat) (err0 : Option ConnectError) (c : Nat)
    (h : attempt a = .ok c) :
    connectAttempts attempt (a :: rest) err0 = (.ok c, [a]) := by
  rw [show connectAttempts attempt (a :: rest) err0 =
    (match attempt a with
     | .ok c => ((Except.ok c : Except (Option ConnectError) Nat), [a])
     | .error (.ioError m) =>
       let r := connectAttempts attempt rest (some (.ioError m))
       (r.1, a :: r.2)
     | .error (.otherError m) =>
       (.error (some (.otherError m)), [a])) from rfl, h]

theorem connectAttempts_cons_io (attempt : Nat → Except ConnectError Nat)
    (a : Nat) (rest : List Nat) (err0 : Option ConnectError) (m : String)
    (h : attempt a = .error (.ioError m)) :
    connectAttempts attempt (a :: rest) err0 =
      ((connectAttempts attempt rest (some (.ioError m))).1,
       a :: (connectAttempts attempt rest (some (.ioError m))).2) := by
  rw [show connectAttempts attempt (a :: rest) err0 =
    (match attempt a with
     | .ok c => ((Except.ok c : Except (Option ConnectError) Nat), [a])
     | .error (.ioError m) =>
       let r := connectAttempts attempt rest (some (.ioError m))
       (r.1, a :: r.2)
     | .error (.otherError m) =>
       (.error (some (.otherError m)), [a])) from rfl, h]

theorem connectAttempts_cons_other (attempt : Nat → Except ConnectError Nat)
    (a : Nat) (rest : List Nat) (err0 : Option ConnectError) (m : String)
    (h : attempt a = .error (.otherError m)) :
    connectAttempts attempt (a :: rest) err0 =
      (.error (some (.otherError m)), [a]) := by
  rw [show connectAttempts attempt (a :: rest) err0 =
    (match attempt a with
     | .ok c => ((Except.ok c : Except (Option ConnectError) Nat), [a])
     | .error (.ioError m) =>
       let r := connectAttempts attempt rest (some (.ioError m))
       (r.1, a :: r.2)
     | .error (.otherError m) =>
       (.error (some (.otherError m)), [a])) from rfl, h]

theorem connectAttempts_retry_spec (attempt : Nat → Except ConnectError Nat) :
    ∀ (addrs : List Nat) (err0 : Option ConnectError)
      (res : Except (Option ConnectError) Nat) (att : List Nat),
    connectAttempts attempt addrs err0 = (res, att) →
    (∃ rem, addrs = att ++ rem) ∧
    (∀ b ∈ att.dropLast, isIoFailure (attempt b)) ∧
    (∀ c, res = .ok c ↔ ∃ a, att.getLast? = some a ∧ attempt a = .ok c) ∧
    (∀ a m, att.getLast? = some a → attempt a = .error (.otherError m) →
      res = .error (some (.otherError m))) ∧
    (∀ a, att.getLast? = some a → isIoFailure (attempt a) → att = addrs) ∧
    (addrs ≠ [] → att ≠ []) := by
  intro addrs
  induction addrs with
  | nil =>
    intro err0 res att h
    rw [show connectAttempts attempt [] err0 = (.error err0, []) from rfl] at h
    injection h with h1 h2
    subst h1
    subst h2
    refine ⟨⟨[], rfl⟩, ?_, ?_, ?_, ?_, ?_⟩
    · intro b hb
      simp at hb
    · intro c
      constructor
      · intro h'
        exact Except.noConfusion h'
      · rintro ⟨x, hx, _⟩
        simp at hx
    · intro x m hx _
      simp at hx
    · intro x hx _
      simp at hx
    · intro h'
      exact absurd rfl h'
  | cons a rest ih =>
    intro err0 res att h
    cases hatt : attempt a with
    | ok c =>
      rw [connectAttempts_cons_ok attempt a rest err0 c hatt] at h
      injection h with h1 h2
      subst h1
      subst h2
      refine ⟨⟨rest, rfl⟩, ?_, ?_, ?_, ?_, ?_⟩
      · intro b hb
        simp at hb
      · intro c'
        constructor
        · intro h'
          refine ⟨a, by simp, ?_⟩
          rw [hatt, Except.ok.inj h']
        · rintro ⟨x, hx, hax⟩
          simp at hx
          subst hx
          rw [hatt] at hax
          rw [Except.ok.inj hax]
      · intro x m hx hax
        simp at hx
        subst hx
        rw [hatt] at hax
        exact Except.noConfusion hax
      · intro x hx hio
        simp at hx
        subst hx
        rw [hatt] at hio
        exact False.elim hio
      · intro _
        simp
    | error e =>
      cases e with
      | ioError m =>
        rw [connectAttempts_cons_io attempt a rest err0 m hatt] at h
        injection h with h1 h2
        subst h1
        subst h2
        obtain ⟨⟨rem, hpre⟩, hdrop, hok, hother, hioC, hne⟩ :=
          ih (some (.ioError m))
            (connectAttempts attempt rest (some (.ioError m))).1
            (connectAttempts attempt rest (some (.ioError m))).2 rfl
        set inner := connectAttempts attempt rest (some (.ioError m)) with hinner
        refine ⟨⟨rem, ?_⟩, ?_, ?_, ?_, ?_, ?_⟩
        · rw [List.cons_append, ← hpre]
        · intro b hb
          cases hr2 : inner.2 with
          | nil =>
            rw [hr2] at hb
            simp at hb
          | cons x t =>
            rw [hr2, List.dropLast_cons₂] at hb
            rcases List.mem_cons.mp hb with hb' | hb'
            · rw [hb', hatt]
              exact trivial
            · exact hdrop b (by rw [hr2]; exact hb')
        · intro c
          cases hr2 : inner.2 with
          | nil =>
            have hrest : rest = [] := by
              by_contra hc
              exact hne hc hr2
            have h1 : inner.1 = Except.error (some (.ioError m)) := by
              rw [hinner, hrest,
                show connectAttempts attempt [] (some (ConnectError.ioError m)) =
                  (Except.error (some (ConnectError.ioError m)), []) from rfl]
            constructor
            · intro h'
              rw [h1] at h'
              exact Except.noConfusion h'
            · rintro ⟨x, hx, hax⟩
              simp at hx
              subst hx
              rw [hatt] at hax
              exact Except.noConfusion hax
          | cons x t =>
            rw [List.getLast?_cons_cons, ← hr2]
            exact hok c
        · intro x m' hx hax
          cases hr2 : inner.2 with
          | nil =>
            rw [hr2] at hx
            simp at hx
            subst hx
            rw [hatt] at hax
            exact ConnectError.noConfusion (Except.error.inj hax)
          | cons x' t =>
            rw [hr2, List.getLast?_cons_cons, ← hr2] at hx
            exact hother x m' hx hax
        · intro x hx hio
          cases hr2 : inner.2 with
          | nil =>
            have hrest : rest = [] := by
              by_contra hc
              exact hne hc hr2
            rw [hrest]
          | cons x' t =>
            rw [hr2, List.getLast?_cons_cons, ← hr2] at hx
            have hrt : rest = x' :: t := by
              rw [← hioC x hx hio, hr2]
            rw [hrt]
        · intro _
          simp
      | otherError m =>
        rw [connectAttempts_cons_other attempt a rest err0 m hatt] at h
        injection h with h1 h2
        subst h1
        subst h2
        refine ⟨⟨rest, rfl⟩, ?_, ?_, ?_, ?_, ?_⟩
        · intro b hb
          simp at hb
        · intro c
          constructor
          · intro h'
            exact Except.noConfusion h'
          · rintro ⟨x, hx, hax⟩
            simp at hx
            subst hx
            rw [hatt] at hax
            exact Except.noConfusion hax
        · intro x m' hx hax
          simp at hx
          subst hx
          rw [hatt] at hax
          rw [ConnectError.otherError.inj (Except.error.inj hax)]
        · intro x hx hio
          simp at hx
          subst hx
          rw [hatt] at hio
          exact False.elim hio
        · intro _
          simp

/-- **C7**.  `connect_to_remote_server` tries the resolved addresses in
sequence: the attempted addresses form a prefix of the resolved list; every
attempted address before the last fails with a network I/O error (an I/O
failure moves on to the next address, any other outcome stops the loop); the
run succeeds with channel `c` exactly when the last attempted address
connects yielding `c`; a non-I/O failure of the last attempted address
becomes the final error (aborting without trying the remaining addresses);
and if even the last attempted address I/O-fails then the whole resolved
list was attempted. -/
theorem connect_to_remote_server_retry (attempt : Nat → Except ConnectError Nat)
    (addrs : List Nat) (res : Except (Option ConnectError) Nat) (att : List Nat)
    (h : connectOverAddrs attempt addrs = (res, att)) :
    (∃ rem, addrs = att ++ rem) ∧
    (∀ b ∈ att.dropLast, isIoFailure (attempt b)) ∧
    (∀ c, res = .ok c ↔ ∃ a, att.getLast? = some a ∧ attempt a = .ok c) ∧
    (∀ a m, att.getLast? = some a → attempt a = .error (.otherError m) →
      res = .error (some (.otherError m))) ∧
    (∀ a, att.getLast? = some a → isIoFailure (attempt a) → att = addrs) ∧
    (addrs ≠ [] → att ≠ []) :=
  connectAttempts_retry_spec attempt addrs none res att h

/-- Witness for C7 at the demonstration oracle: over addresses
`[0, 1, 2]`, address 0 I/O-fails, address 1 connects, address 2 is never
tried. -/
theorem connect_to_remote_server_retry_witness :
    (∃ rem, [0, 1, 2] = [0, 1] ++ rem) ∧
    (∀ b ∈ [0, 1].dropLast, isIoFailure (demoAttempt b)) ∧
    (∀ c, (Except.ok 5 : Except (Option ConnectError) Nat) = .ok c ↔
      ∃ a, [0, 1].getLast? = some a ∧ demoAttempt a = .ok c) ∧
    (∀ a m, [0, 1].getLast? = some a →
      demoAttempt a = .error (.otherError m) →
      (Except.ok 5 : Except (Option ConnectError) Nat) =
        .error (some (.otherError m))) ∧
    (∀ a, [0, 1].getLast? = some a → isIoFailure (demoAttempt a) →
      [0, 1] = [0, 1, 2]) ∧
    (([0, 1, 2] : List Nat) ≠ [] → ([0, 1] : List Nat) ≠ []) :=
  connect_to_remote_server_retry demoAttempt [0, 1, 2] (.ok 5) [0, 1] (by rfl)

/-! ### Claim C10 -/

/-- **C10**.  The URL-parsing step of `connect_to_remote_server`: a string
that parses is used as is; a string rejected only as a relative URL without
base is re-parsed with "tcp://" prepended, so a bare host:port form is
treated identically to its tcp://host:port form whenever the latter parses;
any other parse failure is returned unchanged. -/
theorem server_url_tcp_fallback (parse : String → Except UrlParseError Url)
    (s : String) :
    (∀ u, parse s = .ok u → parse_server_url parse s = .ok u) ∧
    (parse s = .error .RelativeUrlWithoutBase →
      parse_server_url parse s = parse ("tcp://" ++ s)) ∧
    (∀ u, parse s = .error .RelativeUrlWithoutBase →
      parse ("tcp://" ++ s) = .ok u →
      parse_server_url parse s = parse_server_url parse ("tcp://" ++ s)) ∧
    (∀ c, parse s = .error (.OtherParse c) →
      parse_server_url parse s = .error (.OtherParse c)) := by
  refine ⟨?_, ?_, ?_, ?_⟩
  · intro u h
    simp only [parse_server_url, h]
  · intro h
    simp only [parse_server_url, h]
  · intro u h1 h2
    simp only [parse_server_url, h1, h2]
  · intro c h
    simp only [parse_server_url, h]

/-- Witness for C10 at the demonstration parser: the bare form
"host:1234" is accepted and handled exactly like "tcp://host:1234". -/
theorem server_url_tcp_fallback_witness :
    parse_server_url demoParse "host:1234" =
      .ok (⟨"tcp", "host:1234"⟩ : Url) ∧
    parse_server_url demoParse "host:1234" =
      parse_server_url demoParse ("tcp://" ++ "host:1234") := by
  constructor
  · have h := (server_url_tcp_fallback demoParse "host:1234").2.1 (by rfl)
    rw [h]
    rfl
  · exact (server_url_tcp_fallback demoParse "host:1234").2.2.1
      (⟨"tcp", "host:1234"⟩ : Url) (by rfl) (by rfl)

/-! ### Permutation invariance (claim C8) -/

theorem avail_perm {L₁ L₂ : List (ExecutionUuid × Execution)}
    {P₁ P₂ : List FileUuid} (hL : L₁.Perm L₂) (hP : P₁.Perm P₂) :
    ∀ {f : FileUuid}, Avail L₁ P₁ f → Avail L₂ P₂ f := by
  intro f h
  induction h with
  | prov hp =>
    exact Avail.prov (hP.mem_iff.mp hp)
  | out u e hue hdeps hout ih =>
    exact Avail.out u e (hL.mem_iff.mp hue) (fun d hd => ih d hd) hout

theorem check_dag_dup_of_not_nodup {L : List (ExecutionUuid × Execution)}
    {P cbFiles : List FileUuid} {cbExecs : List ExecutionUuid}
    (hK : (keysOf L).Nodup) (h : ¬ (P ++ outsConcat L).Nodup) :
    ∃ g, check_dag L P cbFiles cbExecs = .err (.DuplicateFileUUID g) := by
  have hrev : ¬ (outsConcat L ++ P).Nodup := fun hc =>
    h (List.perm_append_comm.nodup_iff.mp hc)
  by_cases houts : (outsConcat L).Nodup
  · obtain ⟨g, hg, _⟩ := addProvided_err P (outsConcat L) [] houts hrev
    exact ⟨g, check_dag_provide_err hK houts hg⟩
  · have hnot2 : ¬ ([] ++ outsConcat L).Nodup := by
      rw [List.nil_append]
      exact houts
    obtain ⟨g, hg, _⟩ := buildExecs_err_dup L (fun _ => []) [] [] []
      (fun u _ => rfl) hK List.nodup_nil hnot2
    exact ⟨g, check_dag_build_err hg⟩

/-! ### Claim C8 -/

/-- Counterexample to C8 as stated: `dagMixA` and `dagMixB` hold the same
executions (they are permutations of one another, i.e. the same `HashMap`
contents under two iteration orders), yet one run classifies the DAG as
`MissingFile` and the other as `CycleDetected` — the returned error variant
depends on the hash-iteration order, not only on the input data. -/
theorem check_dag_variant_order_dependent :
    dagMixA.Perm dagMixB ∧
    check_dag dagMixA [] [] [] = .err (.MissingFile 99 (depDesc "a")) ∧
    check_dag dagMixB [] [] [] = .err (.CycleDetected "b") ∧
    resClass (check_dag dagMixA [] [] []) ≠
      resClass (check_dag dagMixB [] [] []) := by
  exact ⟨by decide, by decide, by decide, by decide⟩

/-- **C8** (amended).  `check_dag` is deterministic in its result variant up
to the `MissingFile`/`CycleDetected` ambiguity: two runs over the same DAG
contents (permutation-related maps and callback sets, with distinct
execution keys) either return the same result class — both success or both
the same `DAGError` variant — or both runs are stuck-classification errors,
each being `MissingFile` (class 1) or `CycleDetected` (class 3). -/
theorem check_dag_variant_determinism
    (L₁ L₂ : List (ExecutionUuid × Execution)) (P₁ P₂ cbF₁ cbF₂ : List FileUuid)
    (cbE₁ cbE₂ : List ExecutionUuid)
    (hK : (keysOf L₁).Nodup) (hL : L₁.Perm L₂) (hP : P₁.Perm P₂)
    (hF : cbF₁.Perm cbF₂) (hE : cbE₁.Perm cbE₂) :
    resClass (check_dag L₁ P₁ cbF₁ cbE₁) = resClass (check_dag L₂ P₂ cbF₂ cbE₂) ∨
    ((resClass (check_dag L₁ P₁ cbF₁ cbE₁) = 1 ∨
      resClass (check_dag L₁ P₁ cbF₁ cbE₁) = 3) ∧
     (resClass (check_dag L₂ P₂ cbF₂ cbE₂) = 1 ∨
      resClass (check_dag L₂ P₂ cbF₂ cbE₂) = 3)) := by
  have hK₂ : (keysOf L₂).Nodup := (hL.map Prod.fst).nodup_iff.mp hK
  by_cases hGlob : (P₁ ++ outsConcat L₁).Nodup
  · have hGlob₂ : (P₂ ++ outsConcat L₂).Nodup :=
      ((hP.append (outsConcat_perm hL)).nodup_iff).mp hGlob
    obtain ⟨DF₁, hDF₁, hchar₁⟩ := check_dag_char L₁ P₁ cbF₁ cbE₁ hK hGlob
    obtain ⟨DF₂, hDF₂, hchar₂⟩ := check_dag_char L₂ P₂ cbF₂ cbE₂ hK₂ hGlob₂
    rw [hchar₁, hchar₂]
    have hzero : ∀ ds : List FileUuid,
        (remaining ds DF₁ = 0 ↔ remaining ds DF₂ = 0) := by
      intro ds
      rw [remaining_eq_zero, remaining_eq_zero]
      constructor
      · intro h d hd
        exact (hDF₂ d).mpr (avail_perm hL hP ((hDF₁ d).mp (h d hd)))
      · intro h d hd
        exact (hDF₁ d).mpr (avail_perm hL.symm hP.symm ((hDF₂ d).mp (h d hd)))
    have hstuck_iff :
        firstStuck (L₁.map (fun p => (p.1, remaining p.2.deps DF₁))) = none ↔
        firstStuck (L₂.map (fun p => (p.1, remaining p.2.deps DF₂))) = none := by
      rw [firstStuck_formula_none, firstStuck_formula_none]
      constructor
      · intro h p hp
        exact (hzero p.2.deps).mp (h p (hL.mem_iff.mpr hp))
      · intro h p hp
        exact (hzero p.2.deps).mpr (h p (hL.mem_iff.mp hp))
    cases hfs₁ : firstStuck (L₁.map (fun p => (p.1, remaining p.2.deps DF₁))) with
    | some u₁ =>
      cases hfs₂ : firstStuck (L₂.map (fun p => (p.1, remaining p.2.deps DF₂))) with
      | none =>
        rw [hstuck_iff.mpr hfs₂] at hfs₁
        exact Option.noConfusion hfs₁
      | some u₂ =>
        obtain ⟨e₁, _, _, haft₁⟩ :=
          @afterTraversal_stuck L₁ P₁ cbF₁ cbE₁ DF₁ hK u₁ hfs₁
        obtain ⟨e₂, _, _, haft₂⟩ :=
          @afterTraversal_stuck L₂ P₂ cbF₂ cbE₂ DF₂ hK₂ u₂ hfs₂
        right
        constructor
        · rw [haft₁]
          cases firstUnknown e₁.deps (knownFiles L₁ P₁) with
          | some d => exact Or.inl rfl
          | none => exact Or.inr rfl
        · rw [haft₂]
          cases firstUnknown e₂.deps (knownFiles L₂ P₂) with
          | some d => exact Or.inl rfl
          | none => exact Or.inr rfl
    | none =>
      have hfs₂ : firstStuck (L₂.map (fun p => (p.1, remaining p.2.deps DF₂))) =
          none := hstuck_iff.mp hfs₁
      have hcbf_iff : cbFileCheck cbF₁ (knownFiles L₁ P₁) = none ↔
          cbFileCheck cbF₂ (knownFiles L₂ P₂) = none := by
        rw [cbFileCheck_none, cbFileCheck_none]
        constructor
        · intro h f hf
          have h1 := h f (hF.mem_iff.mpr hf)
          rw [mem_knownFiles] at h1 ⊢
          rcases h1 with h' | ⟨q, hq, hqo⟩
          · exact Or.inl (hP.mem_iff.mp h')
          · exact Or.inr ⟨q, hL.mem_iff.mp hq, hqo⟩
        · intro h f hf
          have h1 := h f (hF.mem_iff.mp hf)
          rw [mem_knownFiles] at h1 ⊢
          rcases h1 with h' | ⟨q, hq, hqo⟩
          · exact Or.inl (hP.mem_iff.mpr h')
          · exact Or.inr ⟨q, hL.mem_iff.mpr hq, hqo⟩
      cases hcf₁ : cbFileCheck cbF₁ (knownFiles L₁ P₁) with
      | some e₁ =>
        cases hcf₂ : cbFileCheck cbF₂ (knownFiles L₂ P₂) with
        | none =>
          rw [hcbf_iff.mpr hcf₂] at hcf₁
          exact Option.noConfusion hcf₁
        | some e₂ =>
          obtain ⟨f₁, he₁, _, _⟩ := cbFileCheck_some _ _ _ hcf₁
          obtain ⟨f₂, he₂, _, _⟩ := cbFileCheck_some _ _ _ hcf₂
          left
          have ha₁ : afterTraversal L₁ P₁ cbF₁ cbE₁ DF₁ = .err e₁ := by
            simp only [afterTraversal, hfs₁, hcf₁]
          have ha₂ : afterTraversal L₂ P₂ cbF₂ cbE₂ DF₂ = .err e₂ := by
            simp only [afterTraversal, hfs₂, hcf₂]
          rw [ha₁, ha₂, he₁, he₂]
          rfl
      | none =>
        have hcf₂ : cbFileCheck cbF₂ (knownFiles L₂ P₂) = none :=
          hcbf_iff.mp hcf₁
        have hcbe_iff :
            cbExecCheck cbE₁ (L₁.map (fun p => (p.1, remaining p.2.deps DF₁))) =
              none ↔
            cbExecCheck cbE₂ (L₂.map (fun p => (p.1, remaining p.2.deps DF₂))) =
              none := by
          rw [cbExecCheck_none, cbExecCheck_none, keysOf_map_formula,
            keysOf_map_formula]
          constructor
          · intro h u hu
            exact (hL.map Prod.fst).mem_iff.mp (h u (hE.mem_iff.mpr hu))
          · intro h u hu
            exact (hL.map Prod.fst).mem_iff.mpr (h u (hE.mem_iff.mp hu))
        cases hce₁ : cbExecCheck cbE₁
            (L₁.map (fun p => (p.1, remaining p.2.deps DF₁))) with
        | some e₁ =>
          cases hce₂ : cbExecCheck cbE₂
              (L₂.map (fun p => (p.1, remaining p.2.deps DF₂))) with
          | none =>
            rw [hcbe_iff.mpr hce₂] at hce₁
            exact Option.noConfusion hce₁
          | some e₂ =>
            obtain ⟨v₁, he₁, _, _⟩ := cbExecCheck_some _ _ _ hce₁
            obtain ⟨v₂, he₂, _, _⟩ := cbExecCheck_some _ _ _ hce₂
            left
            have ha₁ : afterTraversal L₁ P₁ cbF₁ cbE₁ DF₁ = .err e₁ := by
              simp only [afterTraversal, hfs₁, hcf₁, hce₁]
            have ha₂ : afterTraversal L₂ P₂ cbF₂ cbE₂ DF₂ = .err e₂ := by
              simp only [afterTraversal, hfs₂, hcf₂, hce₂]
            rw [ha₁, ha₂, he₁, he₂]
            rfl
        | none =>
          have hce₂ : cbExecCheck cbE₂
              (L₂.map (fun p => (p.1, remaining p.2.deps DF₂))) = none :=
            hcbe_iff.mp hce₁
          left
          rw [afterTraversal_ok hfs₁ hcf₁ hce₁, afterTraversal_ok hfs₂ hcf₂ hce₂]
  · have hGlob₂ : ¬ (P₂ ++ outsConcat L₂).Nodup := fun hc =>
      hGlob (((hP.append (outsConcat_perm hL)).nodup_iff).mpr hc)
    obtain ⟨g₁, hg₁⟩ := @check_dag_dup_of_not_nodup L₁ P₁ cbF₁ cbE₁ hK hGlob
    obtain ⟨g₂, hg₂⟩ := @check_dag_dup_of_not_nodup L₂ P₂ cbF₂ cbE₂ hK₂ hGlob₂
    left
    rw [hg₁, hg₂]
    rfl

/-- Witness for C8: applied to the two iteration orders `dagMixA` and
`dagMixB` of the same DAG contents, where both runs land in the
stuck-classification classes. -/
theorem check_dag_variant_determinism_witness :
    resClass (check_dag dagMixA [] [] []) = resClass (check_dag dagMixB [] [] []) ∨
    ((resClass (check_dag dagMixA [] [] []) = 1 ∨
      resClass (check_dag dagMixA [] [] []) = 3) ∧
     (resClass (check_dag dagMixB [] [] []) = 1 ∨
      resClass (check_dag dagMixB [] [] []) = 3)) :=
  check_dag_variant_determinism dagMixA dagMixB [] [] [] [] [] []
    (by decide) (by decide) (by decide) (by decide) (by decide)

end TaskMaker
